import Mathlib

/-! Package gosyphus: jittered capped exponential backoff.

A shallow embedding of `gosyphus.go` (package `gosyphus`).

* `time.Duration` is a signed 64-bit count of nanoseconds: it is embedded as an `Int`, and the
  one place where the source can overflow (`d *= 2`) is wrapped explicitly with `wrapInt64`.
* A Go `error` is an `Option ε`: `none` is `nil`, `some e` is the non-nil error value `e`.
* The collaborators of a retry (the context, the function `f`, the random source and the
  scheduler that resolves the `select`) are gathered in an environment `Env`; a run of
  `Dos` is a function of the environment that returns how the run ended together with the
  list of the interactions it made, in order.
* The `for { select { ... } }` loop need not terminate, so it takes a bound on the number of
  iterations; a run that is still in the loop when the bound is reached ends as `running`.
-/

namespace gosyphus

/-! ## Durations

A Go `time.Duration` is an `int64` number of nanoseconds; every duration below is an `Int`. -/

/-- Smallest value of an `int64`. -/
def minInt64 : Int := -(2 ^ 63)

/-- Largest value of an `int64`. -/
def maxInt64 : Int := 2 ^ 63 - 1

/-- The integer is representable as an `int64`. -/
def InInt64 (x : Int) : Prop := minInt64 ≤ x ∧ x ≤ maxInt64

instance (x : Int) : Decidable (InInt64 x) := by
  unfold InInt64
  infer_instance

/-- Two-complement wrap-around: the `int64` that Go stores for the exact integer `x`. -/
def wrapInt64 (x : Int) : Int := (x + 2 ^ 63) % 2 ^ 64 - 2 ^ 63

/-- Go `time.Millisecond`, in nanoseconds. -/
def millisecond : Int := 1000000

/-- Go `time.Second`, in nanoseconds. -/
def second : Int := 1000000000

/-! ## The retrier -/

/-- Go `type Gosyphus struct { initial, max time.Duration }`. -/
structure Gosyphus where
  initial : Int
  max : Int
deriving DecidableEq, Repr

/-- Go `func New(initial, max time.Duration) *Gosyphus`. -/
def New (initial max : Int) : Gosyphus :=
  let initial := if initial < 1 then 1 else initial
  let max := if max < initial then initial else max
  Gosyphus.mk initial max

/-- Go `var defaultGosyphus`. -/
def defaultGosyphus : Gosyphus := Gosyphus.mk (1 * second) (30 * second)

/-! ## The random source -/

/-- Go `rand.Int63n(n)` of `math/rand`, given the 63-bit value `v` that the generator
delivers: the call panics (`none`) when `n <= 0` and returns `v mod n` otherwise. -/
def Int63n (n : Int) (v : Nat) : Option Int :=
  if n ≤ 0 then none else some (((v % 2 ^ 63 : Nat) : Int) % n)

/-- Go `func jitter(d time.Duration) time.Duration`, given the value `v` of the random
source; `none` is the panic of `rand.Int63n`. -/
def jitter (d : Int) (v : Nat) : Option Int :=
  Int63n d v

/-! ## The collaborators of a run -/

/-- Everything a run of `Dos` interacts with.  Logical time is counted in instants: a call of
`ctx.Err()` made at instant `t` reads `ctxErr t` and ends at instant `t + 1`; a call of `f`
begun at instant `t` ends at instant `t + 1`; a `select` entered at instant `t` is resolved at
instant `t + 1`. -/
structure Env (ε : Type) where
  /-- The value `ctx.Err()` has at the given instant. -/
  ctxErr : Nat → Option ε
  /-- Whether the channel `ctx.Done()` is closed at the given instant. -/
  ctxDone : Nat → Bool
  /-- The result of the `n`-th call of `f` (counted from 0). -/
  f : Nat → Option ε
  /-- The `n`-th value delivered by the random source (counted from 0). -/
  rand : Nat → Nat
  /-- The choice of the scheduler in the `n`-th `select` (counted from 0): the timer has
  fired as well and its case is the one taken, also when `ctx.Done()` is closed. -/
  timerFirst : Nat → Bool

/-- Contract of `context.Context`: once `Err` returns a non-nil error, later calls return the
same error. -/
def Env.ErrStable {ε : Type} (env : Env ε) : Prop :=
  ∀ t e, env.ctxErr t = some e → env.ctxErr (t + 1) = some e

/-- Contract of `context.Context`: when `Done` is closed, `Err` returns a non-nil error. -/
def Env.DoneHasErr {ε : Type} (env : Env ε) : Prop :=
  ∀ t, env.ctxDone t = true → env.ctxErr t ≠ none

/-- One interaction of a run with its collaborators. -/
inductive Event (ε : Type) where
  /-- The call `ctx.Err()` returned `r`. -/
  | ctxErr (r : Option ε)
  /-- The call `f()` returned `r`. -/
  | call (r : Option ε)
  /-- The call `shouldRetry(e)` returned `b`. -/
  | classify (e : ε) (b : Bool)
  /-- The call `jitter(d)` returned `w` (`none`: it panicked); the timer is armed with `w`. -/
  | jitter (d : Int) (w : Option Int)
  /-- The `select` was resolved; `cancelled` tells that the case `<-ctx.Done()` was taken. -/
  | wait (cancelled : Bool)
deriving DecidableEq, Repr

/-- How a run ended. -/
inductive Outcome (ε : Type) where
  /-- The function returned the given error (`none` is `nil`). -/
  | returned (err : Option ε)
  /-- The run panicked (in `rand.Int63n`). -/
  | panicked
  /-- The run is still in its loop after the allowed number of iterations. -/
  | running
deriving DecidableEq, Repr

/-- A run: how it ended and the interactions it made, in order. -/
structure Run (ε : Type) where
  outcome : Outcome ε
  trace : List (Event ε)
deriving DecidableEq, Repr

/-- The position of a run among its collaborators. -/
structure St where
  /-- The current instant. -/
  now : Nat
  /-- The number of calls of `f` made so far. -/
  calls : Nat
  /-- The number of values taken from the random source so far. -/
  draws : Nat
  /-- The number of `select`s resolved so far. -/
  waits : Nat
deriving DecidableEq, Repr

/-- The run `r`, preceded by the interactions `evs`. -/
def Run.after {ε : Type} (evs : List (Event ε)) (r : Run ε) : Run ε :=
  Run.mk r.outcome (evs ++ r.trace)

/-- The loop `for { select { case <-ctx.Done(): ...; case <-t.C: ... } }` of `Dos`, entered
with ceiling `d` and the timer armed, for at most the given number of iterations. -/
def retryLoop {ε : Type} (g : Gosyphus) (env : Env ε) (shouldRetry : ε → Bool) :
    Nat → Int → St → Run ε
  | 0, _, _ => Run.mk Outcome.running []
  | fuel + 1, d, st =>
    if env.ctxDone (st.now + 1) = true ∧ env.timerFirst st.waits = false then
      -- case <-ctx.Done(): the timer is stopped and drained; return ctx.Err()
      Run.mk (Outcome.returned (env.ctxErr (st.now + 1)))
        [Event.wait true, Event.ctxErr (env.ctxErr (st.now + 1))]
    else
      -- case <-t.C:
      match env.f st.calls with
      | none => Run.mk (Outcome.returned none) [Event.wait false, Event.call none]
      | some err =>
        if shouldRetry err = false then
          Run.mk (Outcome.returned (some err))
            [Event.wait false, Event.call (some err), Event.classify err false]
        else
          -- d *= 2
          let d := wrapInt64 (d * 2)
          let d := if d > g.max ∨ d ≤ 0 then g.max else d
          -- t.Reset(jitter(d))
          match jitter d (env.rand st.draws) with
          | none =>
            Run.mk Outcome.panicked
              [Event.wait false, Event.call (some err), Event.classify err true,
                Event.jitter d none]
          | some w =>
            Run.after
              [Event.wait false, Event.call (some err), Event.classify err true,
                Event.jitter d (some w)]
              (retryLoop g env shouldRetry fuel d
                (St.mk (st.now + 2) (st.calls + 1) (st.draws + 1) (st.waits + 1)))

/-- Go `func (g *Gosyphus) Dos(ctx, f, shouldRetry) error`, with at most `fuel` iterations
of its loop. -/
def Gosyphus.Dos {ε : Type} (g : Gosyphus) (env : Env ε) (shouldRetry : ε → Bool)
    (fuel : Nat) : Run ε :=
  match env.ctxErr 0 with
  | some c =>
    -- if ctx.Err() != nil { return ctx.Err() }
    Run.mk (Outcome.returned (env.ctxErr 1)) [Event.ctxErr (some c), Event.ctxErr (env.ctxErr 1)]
  | none =>
    match env.f 0 with
    | none => Run.mk (Outcome.returned none) [Event.ctxErr none, Event.call none]
    | some err =>
      if shouldRetry err = false then
        Run.mk (Outcome.returned (some err))
          [Event.ctxErr none, Event.call (some err), Event.classify err false]
      else
        -- d := g.initial; t := time.NewTimer(jitter(d))
        let d := g.initial
        match jitter d (env.rand 0) with
        | none =>
          Run.mk Outcome.panicked
            [Event.ctxErr none, Event.call (some err), Event.classify err true,
              Event.jitter d none]
        | some w =>
          Run.after
            [Event.ctxErr none, Event.call (some err), Event.classify err true,
              Event.jitter d (some w)]
            (retryLoop g env shouldRetry fuel d (St.mk 2 1 1 0))

/-- Go `func (g *Gosyphus) Do(ctx, f) error`. -/
def Gosyphus.Do {ε : Type} (g : Gosyphus) (env : Env ε) (fuel : Nat) : Run ε :=
  let alwaysRetry : ε → Bool := fun _ => true
  g.Dos env alwaysRetry fuel

/-- Go package-level `func Dos(ctx, f, shouldRetry) error`. -/
def Dos {ε : Type} (env : Env ε) (shouldRetry : ε → Bool) (fuel : Nat) : Run ε :=
  defaultGosyphus.Dos env shouldRetry fuel

/-- Go package-level `func Do(ctx, f) error`. -/
def Do {ε : Type} (env : Env ε) (fuel : Nat) : Run ε :=
  defaultGosyphus.Do env fuel

/-! ## Observations on a trace -/

/-- The results of the calls of `f`, in order. -/
def callResults {ε : Type} : List (Event ε) → List (Option ε)
  | [] => []
  | Event.call r :: tr => r :: callResults tr
  | _ :: tr => callResults tr

/-- The arguments and results of the calls of `shouldRetry`, in order. -/
def classified {ε : Type} : List (Event ε) → List (ε × Bool)
  | [] => []
  | Event.classify e b :: tr => (e, b) :: classified tr
  | _ :: tr => classified tr

/-- The ceilings passed to `jitter`, in order. -/
def ceilings {ε : Type} : List (Event ε) → List Int
  | [] => []
  | Event.jitter d _ :: tr => d :: ceilings tr
  | _ :: tr => ceilings tr

/-- The ceilings passed to `jitter` with the wait each call returned, in order. -/
def draws {ε : Type} : List (Event ε) → List (Int × Option Int)
  | [] => []
  | Event.jitter d w :: tr => (d, w) :: draws tr
  | _ :: tr => draws tr

/-- The outcomes of the waits (`select`s) that were resolved, in order: `true` when the wait
was cut short by `ctx.Done()`. -/
def waited {ε : Type} : List (Event ε) → List Bool
  | [] => []
  | Event.wait c :: tr => c :: waited tr
  | _ :: tr => waited tr

/-- The results of the calls of `ctx.Err()`, in order. -/
def ctxErrs {ε : Type} : List (Event ε) → List (Option ε)
  | [] => []
  | Event.ctxErr r :: tr => r :: ctxErrs tr
  | _ :: tr => ctxErrs tr

/-- The exact ceiling of the `i`-th wait: `initial`, then doubled and capped at `max`, in
unbounded integer arithmetic. -/
def idealCeiling (g : Gosyphus) : Nat → Int
  | 0 => g.initial
  | i + 1 => min (2 * idealCeiling g i) g.max

/-- An environment whose context never fires, whose `f` fails with `retryable n` on each of
its first `k` calls and returns `last` on every later call. -/
def scripted {ε : Type} (k : Nat) (retryable : Nat → ε) (last : Option ε)
    (rand : Nat → Nat) : Env ε :=
  Env.mk (fun _ => none) (fun _ => false)
    (fun n => if n < k then some (retryable n) else last) rand (fun _ => false)

/-! ## How a run that returns ends -/

/-- The three ways in which a trace can end when the run returns `r`: with a call of `f` that
succeeded (and `r` is nil); with a call of `ctx.Err()` whose value is `r`, made either after
`ctx.Done()` was found closed or right after the call at entry returned a non-nil error; or
with a call of `f` that returned the error `r` followed by `shouldRetry` rejecting it. -/
def EndsBy {ε : Type} (env : Env ε) (shouldRetry : ε → Bool) (r : Option ε)
    (tr : List (Event ε)) : Prop :=
  (r = none ∧ ∃ pre, tr = pre ++ [Event.call none]) ∨
  (∃ t pre, r = env.ctxErr t ∧ (env.ctxDone t = true ∨ (t = 1 ∧ env.ctxErr 0 ≠ none)) ∧
    tr = pre ++ [Event.ctxErr r]) ∨
  (∃ e pre, r = some e ∧ shouldRetry e = false ∧
    tr = pre ++ [Event.call (some e), Event.classify e false])

/-! ## Example environments -/

/-- The environment of `TestCtxAlreadyDone`: the context is cancelled (error 0) from the
start, and `f` would succeed. -/
def envAlreadyDone : Env Nat :=
  Env.mk (fun _ => some 0) (fun _ => true) (fun _ => none) (fun _ => 0) (fun _ => false)

/-- The environment of a context with a deadline that fires while the first call of `f` is
running (error 1 from instant 2 on), with an `f` that succeeds. -/
def envFiresDuringCall : Env Nat :=
  Env.mk (fun t => if t < 2 then none else some 1) (fun t => decide (2 ≤ t))
    (fun _ => none) (fun _ => 0) (fun _ => false)

/-- A context with a deadline that expires (error 1) during the third wait, at instant 7,
and an `f` that always fails with the error 0. -/
def envDeadline : Env Nat :=
  Env.mk (fun t => if t < 7 then none else some 1) (fun t => decide (7 ≤ t))
    (fun _ => some 0) (fun n => 5 + n) (fun _ => false)

/-- The context has fired at instant `s` when its `Done` channel is closed or its `Err` is
non-nil at that instant.  `ErrOnceFired` says that `Err` is non-nil from the instant the
context has fired on. -/
def Env.ErrOnceFired {ε : Type} (env : Env ε) : Prop :=
  ∀ s t, s ≤ t → (env.ctxDone s = true ∨ env.ctxErr s ≠ none) → env.ctxErr t ≠ none

/-- The environment of `Example` and `Example_shouldRetry`: a context with a deadline that
expires (error 1) long after the run, at instant 100, and an `f` that fails with the error 0
on its first `k` calls and returns `last` afterwards. -/
def envLateDeadline (k : Nat) (last : Option Nat) : Env Nat :=
  Env.mk (fun t => if t < 100 then none else some 1) (fun t => decide (100 ≤ t))
    (fun n => if n < k then some 0 else last) (fun n => 5 + n) (fun _ => false)

/-! ## Instants and order of the interactions -/

/-- The interactions of a trace that begins at instant `t`, each with its instant: for a
call of `ctx.Err()` the instant at which it is made (the one whose `ctxErr` it reads), for a
call of `f` the instant at which it returns, for a wait the instant at which the `select`
is resolved (the one whose `ctxDone` it reads); `shouldRetry` and `jitter` take no time. -/
def timed {ε : Type} : Nat → List (Event ε) → List (Nat × Event ε)
  | _, [] => []
  | t, Event.ctxErr r :: tr => (t, Event.ctxErr r) :: timed (t + 1) tr
  | t, Event.call r :: tr => (t + 1, Event.call r) :: timed (t + 1) tr
  | t, Event.wait c :: tr => (t + 1, Event.wait c) :: timed (t + 1) tr
  | t, Event.classify e b :: tr => (t, Event.classify e b) :: timed t tr
  | t, Event.jitter d w :: tr => (t, Event.jitter d w) :: timed t tr

/-- What holds of two consecutive interactions `prev`, `next` of a run: nothing follows a
call of `f` that succeeded; a call of `f` that failed is directly followed by the call of
`shouldRetry` on its error; a call of `shouldRetry` directly follows the call of `f` that
returned its argument, and returns the value of the classifier; a call of `f` directly
follows a check that found the context not fired, a `ctx.Err()` that returned nil or a wait
that the timer ended. -/
def InOrder {ε : Type} (shouldRetry : ε → Bool) (prev next : Event ε) : Prop :=
  prev ≠ Event.call none ∧
  (∀ e, prev = Event.call (some e) → next = Event.classify e (shouldRetry e)) ∧
  (∀ e b, next = Event.classify e b → prev = Event.call (some e) ∧ b = shouldRetry e) ∧
  (∀ r, next = Event.call r → prev = Event.ctxErr none ∨ prev = Event.wait false)

/-- The interaction is one in which the run observes that the context has fired: a wait
that `ctx.Done()` cut short, or a call of `ctx.Err()` that returned a non-nil error. -/
def ObservesFired {ε : Type} (ev : Event ε) : Prop :=
  ev = Event.wait true ∨ ∃ c, ev = Event.ctxErr (some c)

/-- A context with a deadline that expires (error 1) while the first call of `f` is running,
between the instants 1 and 2, and an `f` that always fails with the error 0. -/
def envExpiresInCall : Env Nat :=
  Env.mk (fun t => if t < 2 then none else some 1) (fun t => decide (2 ≤ t))
    (fun _ => some 0) (fun n => 5 + n) (fun _ => false)

/-- A context with a deadline that expires (error 1) during the first wait, at instant 3,
when the timer has fired too and the `select` takes the timer; `f` fails with the error 0 on
its first call and returns `last` afterwards. -/
def envTimerWins (last : Option Nat) : Env Nat :=
  Env.mk (fun t => if t < 3 then none else some 1) (fun t => decide (3 ≤ t))
    (fun n => if n = 0 then some 0 else last) (fun n => 5 + n) (fun n => decide (n = 0))

/-! ## Arithmetic of the ceiling -/

theorem wrapInt64_of_inRange (x : Int) (h : InInt64 x) : wrapInt64 x = x := by
  unfold InInt64 minInt64 maxInt64 at h
  unfold wrapInt64
  omega

theorem wrapInt64_double_overflow (d : Int) (h1 : maxInt64 < d * 2) (h2 : d ≤ maxInt64) :
    wrapInt64 (d * 2) ≤ 0 := by
  unfold maxInt64 at h1 h2
  unfold wrapInt64
  omega

/-- The update of the ceiling in the loop of `Dos` keeps it between 1 and `max`. -/
theorem nextCeiling_bounds (g : Gosyphus) (d : Int) (hmax : 1 ≤ g.max) :
    1 ≤ (if wrapInt64 (d * 2) > g.max ∨ wrapInt64 (d * 2) ≤ 0 then g.max
          else wrapInt64 (d * 2)) ∧
    (if wrapInt64 (d * 2) > g.max ∨ wrapInt64 (d * 2) ≤ 0 then g.max
          else wrapInt64 (d * 2)) ≤ g.max := by
  split_ifs with h
  · exact ⟨hmax, le_refl _⟩
  · push_neg at h
    constructor <;> omega

/-- The update of the ceiling in the loop of `Dos` is the exact doubling capped at `max`. -/
theorem nextCeiling_exact (g : Gosyphus) (d : Int) (h1 : 1 ≤ d) (h2 : d ≤ g.max)
    (h3 : g.max ≤ maxInt64) :
    (if wrapInt64 (d * 2) > g.max ∨ wrapInt64 (d * 2) ≤ 0 then g.max
          else wrapInt64 (d * 2)) = min (2 * d) g.max := by
  by_cases hov : d * 2 ≤ maxInt64
  · have hw : wrapInt64 (d * 2) = d * 2 :=
      wrapInt64_of_inRange _ ⟨by unfold minInt64; omega, hov⟩
    rw [hw]
    split_ifs with h
    · rcases h with h | h
      · rw [min_eq_right]; omega
      · omega
    · push_neg at h
      rw [min_eq_left (by omega)]
      omega
  · have hw : wrapInt64 (d * 2) ≤ 0 :=
      wrapInt64_double_overflow d (by omega) (le_trans h2 h3)
    rw [if_pos (Or.inr hw), min_eq_right]
    omega

theorem idealCeiling_bounds (g : Gosyphus) (h1 : 1 ≤ g.initial) (h2 : g.initial ≤ g.max)
    (i : Nat) : 1 ≤ idealCeiling g i ∧ idealCeiling g i ≤ g.max := by
  induction i with
  | zero => exact ⟨h1, h2⟩
  | succ i ih =>
    simp only [idealCeiling]
    refine ⟨le_min (by omega) (by omega), min_le_right _ _⟩

/-- For a positive ceiling `jitter` does not panic and its value is below the ceiling. -/
theorem jitter_of_pos (d : Int) (v : Nat) (hd : 1 ≤ d) :
    ∃ w, jitter d v = some w ∧ 0 ≤ w ∧ w < d := by
  have hpos : (0 : Int) < d := by omega
  refine ⟨((v % 2 ^ 63 : Nat) : Int) % d, ?_, ?_, ?_⟩
  · unfold jitter Int63n
    rw [if_neg (not_le.mpr hpos)]
  · exact Int.emod_nonneg _ (ne_of_gt hpos)
  · exact Int.emod_lt_of_pos _ hpos

/-! ## Observations on a trace that is a concatenation -/

theorem callResults_append {ε : Type} (l₁ l₂ : List (Event ε)) :
    callResults (l₁ ++ l₂) = callResults l₁ ++ callResults l₂ := by
  induction l₁ with
  | nil => rfl
  | cons ev l ih => cases ev <;> simp [callResults, ih]

theorem classified_append {ε : Type} (l₁ l₂ : List (Event ε)) :
    classified (l₁ ++ l₂) = classified l₁ ++ classified l₂ := by
  induction l₁ with
  | nil => rfl
  | cons ev l ih => cases ev <;> simp [classified, ih]

theorem ceilings_append {ε : Type} (l₁ l₂ : List (Event ε)) :
    ceilings (l₁ ++ l₂) = ceilings l₁ ++ ceilings l₂ := by
  induction l₁ with
  | nil => rfl
  | cons ev l ih => cases ev <;> simp [ceilings, ih]

theorem draws_append {ε : Type} (l₁ l₂ : List (Event ε)) :
    draws (l₁ ++ l₂) = draws l₁ ++ draws l₂ := by
  induction l₁ with
  | nil => rfl
  | cons ev l ih => cases ev <;> simp [draws, ih]

theorem waited_append {ε : Type} (l₁ l₂ : List (Event ε)) :
    waited (l₁ ++ l₂) = waited l₁ ++ waited l₂ := by
  induction l₁ with
  | nil => rfl
  | cons ev l ih => cases ev <;> simp [waited, ih]

theorem ceilings_eq_map_draws {ε : Type} (l : List (Event ε)) :
    ceilings l = (draws l).map Prod.fst := by
  induction l with
  | nil => rfl
  | cons ev l ih => cases ev <;> simp [ceilings, draws, ih]

/-! ## The constructor -/

/-- C5: for all durations `initial` and `max`, `New` returns a retrier whose `initial` is the
larger of `initial` and 1 and whose `max` is the larger of `max` and that normalized
`initial`; the result satisfies `1 ≤ initial ≤ max`; arguments that already satisfy
`1 ≤ initial ≤ max` are kept unchanged; and 64-bit arguments give 64-bit fields. -/
theorem New_normalizes (initial max : Int) :
    (New initial max).initial = Max.max initial 1 ∧
    (New initial max).max = Max.max max (Max.max initial 1) ∧
    1 ≤ (New initial max).initial ∧
    (New initial max).initial ≤ (New initial max).max ∧
    (1 ≤ initial → initial ≤ max → New initial max = Gosyphus.mk initial max) ∧
    (InInt64 initial → InInt64 max →
      InInt64 (New initial max).initial ∧ InInt64 (New initial max).max) := by
  have hi : (New initial max).initial = Max.max initial 1 := by
    simp only [New]
    split_ifs with h
    · rw [max_eq_right (by omega)]
    · rw [max_eq_left (by omega)]
  have hm : (New initial max).max = Max.max max (Max.max initial 1) := by
    simp only [New]
    split_ifs with h1 h2 h2
    · rw [max_eq_right (by omega), max_eq_right (by omega)]
    · rw [max_eq_right (by omega : initial ≤ 1), max_eq_left (by omega)]
    · rw [max_eq_left (by omega : (1 : Int) ≤ initial), max_eq_right (by omega)]
    · rw [max_eq_left (by omega : (1 : Int) ≤ initial), max_eq_left (by omega)]
  refine ⟨hi, hm, ?_, ?_, ?_, ?_⟩
  · rw [hi]; exact le_max_right _ _
  · rw [hi, hm]; exact le_max_right _ _
  · intro h1 h2
    simp only [New]
    rw [if_neg (by omega), if_neg (by omega)]
  · intro h1 h2
    unfold InInt64 minInt64 maxInt64 at *
    rw [hm, hi]
    refine ⟨⟨?_, ?_⟩, ⟨?_, ?_⟩⟩
    · exact le_trans (by omega) (le_max_right initial 1)
    · exact max_le h1.2 (by omega)
    · exact le_trans h2.1 (le_max_left _ _)
    · exact max_le h2.2 (max_le h1.2 (by omega))

/-- Witness of `New_normalizes` on the arguments of `TestBadConfig`, `New(0, -1)`, and on
arguments that need no normalization. -/
theorem New_normalizes_witness :
    New 0 (-1) = Gosyphus.mk 1 1 ∧
    New (1 * millisecond) (30 * millisecond) = Gosyphus.mk 1000000 30000000 ∧
    (InInt64 (New 0 (-1)).initial ∧ InInt64 (New 0 (-1)).max) :=
  ⟨by decide,
   (New_normalizes (1 * millisecond) (30 * millisecond)).2.2.2.2.1 (by decide) (by decide),
   (New_normalizes 0 (-1)).2.2.2.2.2 (by decide) (by decide)⟩

/-! ## Runs that end before the loop -/

/-- C3: when `ctx.Err()` is non-nil at entry, `Dos` and `Do` return what `ctx.Err()` returns,
without any call of `f` or `shouldRetry`, without drawing a wait and without waiting; for a
context that keeps its error (the contract of `context.Context`) the value returned is the
error the context had at entry. -/
theorem Dos_ctx_expired_at_entry {ε : Type} (g : Gosyphus) (env : Env ε)
    (shouldRetry : ε → Bool) (fuel : Nat) (c : ε) (h : env.ctxErr 0 = some c) :
    g.Dos env shouldRetry fuel =
      Run.mk (Outcome.returned (env.ctxErr 1)) [Event.ctxErr (some c), Event.ctxErr (env.ctxErr 1)] ∧
    g.Do env fuel = g.Dos env shouldRetry fuel ∧
    callResults (g.Dos env shouldRetry fuel).trace = [] ∧
    classified (g.Dos env shouldRetry fuel).trace = [] ∧
    draws (g.Dos env shouldRetry fuel).trace = [] ∧
    waited (g.Dos env shouldRetry fuel).trace = [] ∧
    (env.ErrStable → (g.Dos env shouldRetry fuel).outcome = Outcome.returned (some c) ∧
      (g.Do env fuel).outcome = Outcome.returned (some c)) := by
  have hrun : ∀ sr : ε → Bool, g.Dos env sr fuel =
      Run.mk (Outcome.returned (env.ctxErr 1))
        [Event.ctxErr (some c), Event.ctxErr (env.ctxErr 1)] := by
    intro sr
    simp only [Gosyphus.Dos, h]
  refine ⟨hrun _, ?_, ?_, ?_, ?_, ?_, ?_⟩
  · simp only [Gosyphus.Do, hrun]
  · rw [hrun]; rfl
  · rw [hrun]; rfl
  · rw [hrun]; rfl
  · rw [hrun]; rfl
  · intro hs
    simp only [Gosyphus.Do, hrun, hs 0 c h, and_self]

/-- Witness of `Dos_ctx_expired_at_entry` on `TestCtxAlreadyDone`. -/
theorem Dos_ctx_expired_at_entry_witness :
    envAlreadyDone.ctxErr 0 = some 0 ∧ envAlreadyDone.ErrStable ∧
    (defaultGosyphus.Do envAlreadyDone 3).outcome = Outcome.returned (some 0) ∧
    callResults (defaultGosyphus.Dos envAlreadyDone (fun _ => true) 3).trace = [] :=
  have hs : envAlreadyDone.ErrStable := fun _ _ h => h
  have key := Dos_ctx_expired_at_entry defaultGosyphus envAlreadyDone (fun _ => true) 3 0 rfl
  ⟨rfl, hs, (key.2.2.2.2.2.2 hs).2, key.2.2.1⟩

/-- C8: when the context is not expired at entry and the first call of `f` succeeds, `Dos`
and `Do` return nil after exactly one call of `f`, with no call of `shouldRetry`, no draw and
no wait, whatever the context does afterwards (its later values are not constrained). -/
theorem Dos_immediate_success {ε : Type} (g : Gosyphus) (env : Env ε)
    (shouldRetry : ε → Bool) (fuel : Nat) (h0 : env.ctxErr 0 = none) (hf : env.f 0 = none) :
    g.Dos env shouldRetry fuel =
      Run.mk (Outcome.returned none) [Event.ctxErr none, Event.call none] ∧
    g.Do env fuel = Run.mk (Outcome.returned none) [Event.ctxErr none, Event.call none] ∧
    callResults (g.Dos env shouldRetry fuel).trace = [none] ∧
    classified (g.Dos env shouldRetry fuel).trace = [] ∧
    draws (g.Dos env shouldRetry fuel).trace = [] ∧
    waited (g.Dos env shouldRetry fuel).trace = [] := by
  have hrun : ∀ sr : ε → Bool, g.Dos env sr fuel =
      Run.mk (Outcome.returned none) [Event.ctxErr none, Event.call none] := by
    intro sr
    simp only [Gosyphus.Dos, h0, hf]
  refine ⟨hrun _, ?_, ?_, ?_, ?_, ?_⟩
  · simp only [Gosyphus.Do, hrun]
  · rw [hrun]; rfl
  · rw [hrun]; rfl
  · rw [hrun]; rfl
  · rw [hrun]; rfl

/-- Witness of `Dos_immediate_success`: the context fires during the call, `f` succeeds. -/
theorem Dos_immediate_success_witness :
    envFiresDuringCall.ctxErr 0 = none ∧ envFiresDuringCall.ctxErr 2 = some 1 ∧
    defaultGosyphus.Do envFiresDuringCall 3 =
      Run.mk (Outcome.returned none) [Event.ctxErr none, Event.call none] :=
  ⟨rfl, rfl,
   (Dos_immediate_success defaultGosyphus envFiresDuringCall (fun _ => true) 3 rfl rfl).2.1⟩

/-! ## Runs in which the context does not fire before they end -/

/-- The loop, when `Done` is open at the instants at which its next `j + 1` waits are
resolved and `f` fails retryably `j` more times before returning `last`, a nil or an error
that is not retried. -/
theorem retryLoop_scripted {ε : Type} (g : Gosyphus) (env : Env ε) (shouldRetry : ε → Bool)
    (hmax : 1 ≤ g.max) (last : Option ε)
    (hlast : ∀ e, last = some e → shouldRetry e = false) :
    ∀ (j fuel : Nat) (d : Int) (st : St), j < fuel →
      (∀ n, n ≤ j → env.ctxDone (st.now + 2 * n + 1) = false) →
      (∀ n, n < j → ∃ e, env.f (st.calls + n) = some e ∧ shouldRetry e = true) →
      env.f (st.calls + j) = last →
      (retryLoop g env shouldRetry fuel d st).outcome = Outcome.returned last ∧
      (callResults (retryLoop g env shouldRetry fuel d st).trace).length = j + 1 ∧
      (waited (retryLoop g env shouldRetry fuel d st).trace) = List.replicate (j + 1) false ∧
      (draws (retryLoop g env shouldRetry fuel d st).trace).length = j := by
  intro j
  induction j with
  | zero =>
    intro fuel d st hfuel hd _ hl
    obtain ⟨fuel, rfl⟩ : ∃ m, fuel = m + 1 := ⟨fuel - 1, by omega⟩
    have hd0 : env.ctxDone (st.now + 1) = false := hd 0 (le_refl 0)
    rw [Nat.add_zero] at hl
    cases hlast' : last with
    | none =>
      rw [hlast'] at hl
      simp [retryLoop, hd0, hl, callResults, waited, draws]
    | some e =>
      rw [hlast'] at hl
      have hsr := hlast e hlast'
      simp [retryLoop, hd0, hl, hsr, callResults, waited, draws]
  | succ j ih =>
    intro fuel d st hfuel hd hfail hl
    obtain ⟨fuel, rfl⟩ : ∃ m, fuel = m + 1 := ⟨fuel - 1, by omega⟩
    have hd0 : env.ctxDone (st.now + 1) = false := hd 0 (by omega)
    obtain ⟨e, hfe, hsr⟩ := hfail 0 (by omega)
    rw [Nat.add_zero] at hfe
    obtain ⟨w, hw, -, -⟩ := jitter_of_pos _ (env.rand st.draws) (nextCeiling_bounds g d hmax).1
    have e1 : ∀ n, st.now + 2 + 2 * n + 1 = st.now + 2 * (n + 1) + 1 := fun n => by omega
    have hrec := ih fuel
      (if wrapInt64 (d * 2) > g.max ∨ wrapInt64 (d * 2) ≤ 0 then g.max else wrapInt64 (d * 2))
      (St.mk (st.now + 2) (st.calls + 1) (st.draws + 1) (st.waits + 1)) (by omega)
      (fun n hn => by
        show env.ctxDone (st.now + 2 + 2 * n + 1) = false
        rw [e1]
        exact hd (n + 1) (by omega))
      (by
        intro n hn
        have := hfail (n + 1) (by omega)
        simpa [Nat.add_assoc, Nat.add_comm 1 n] using this)
      (by simpa [Nat.add_assoc, Nat.add_comm 1 j] using hl)
    obtain ⟨ho, hc, hwt, hdr⟩ := hrec
    simp only [gt_iff_lt] at hw ho hc hwt hdr
    simp [retryLoop, hd0, hfe, hsr, hw, Run.after, callResults_append, waited_append,
      draws_append, callResults, waited, draws, ho, hc, hwt, hdr, List.replicate_succ]

/-- A run of `Dos` when the context is not expired at entry, `Done` is open at the instants
`3, 5, ..., 2 * k + 1` at which the `k` waits are resolved, and `f` fails retryably `k`
times before returning `last`, a nil or an error that is not retried. -/
theorem Dos_scripted {ε : Type} (g : Gosyphus) (env : Env ε) (shouldRetry : ε → Bool)
    (k fuel : Nat) (last : Option ε) (h1 : 1 ≤ g.initial) (h2 : g.initial ≤ g.max)
    (h0 : env.ctxErr 0 = none) (hd : ∀ n, n < k → env.ctxDone (2 * n + 3) = false)
    (hfail : ∀ n, n < k → ∃ e, env.f n = some e ∧ shouldRetry e = true)
    (hl : env.f k = last) (hlast : ∀ e, last = some e → shouldRetry e = false)
    (hfuel : k ≤ fuel) :
    (g.Dos env shouldRetry fuel).outcome = Outcome.returned last ∧
    (callResults (g.Dos env shouldRetry fuel).trace).length = k + 1 ∧
    waited (g.Dos env shouldRetry fuel).trace = List.replicate k false ∧
    (draws (g.Dos env shouldRetry fuel).trace).length = k := by
  cases k with
  | zero =>
    cases hlast' : last with
    | none =>
      rw [hlast'] at hl
      simp [Gosyphus.Dos, h0, hl, callResults, waited, draws]
    | some e =>
      rw [hlast'] at hl
      have hsr := hlast e hlast'
      simp [Gosyphus.Dos, h0, hl, hsr, callResults, waited, draws]
  | succ k =>
    obtain ⟨e, hfe, hsr⟩ := hfail 0 (by omega)
    obtain ⟨w, hw, -, -⟩ := jitter_of_pos g.initial (env.rand 0) h1
    have e1 : ∀ n, 2 + 2 * n + 1 = 2 * n + 3 := fun n => by omega
    obtain ⟨ho, hc, hwt, hdr⟩ :=
      retryLoop_scripted g env shouldRetry (le_trans h1 h2) last hlast k fuel g.initial
        (St.mk 2 1 1 0) (by omega)
        (fun n hn => by
          show env.ctxDone (2 + 2 * n + 1) = false
          rw [e1]
          exact hd n (by omega))
        (by
          intro n hn
          have := hfail (n + 1) (by omega)
          simpa [Nat.add_comm 1 n] using this)
        (by simpa [Nat.add_comm 1 k] using hl)
    simp [Gosyphus.Dos, h0, hfe, hsr, hw, Run.after, callResults_append, waited_append,
      draws_append, callResults, waited, draws, ho, hc, hwt, hdr]

/-- C1: with `1 ≤ initial ≤ max`, a context that is not expired at entry and does not fire
during the run, and an `f` whose first `k` calls fail with errors that `shouldRetry` accepts
and whose next call succeeds, `Dos` returns nil after exactly `k + 1` calls of `f`, exactly
`k` waits, none of them cut short, and exactly `k` draws of `jitter`; this holds for every
`k` and for every bound on the iterations that is at least `k`.  Of the context only this is
used: `Done` is open at the instants `3, 5, ..., 2 * k + 1` at which the `k` waits of the run
are resolved; what the context does at other instants, or after the run, is free. -/
theorem Dos_eventual_success {ε : Type} (g : Gosyphus) (env : Env ε) (shouldRetry : ε → Bool)
    (k fuel : Nat) (h1 : 1 ≤ g.initial) (h2 : g.initial ≤ g.max)
    (h0 : env.ctxErr 0 = none) (hd : ∀ n, n < k → env.ctxDone (2 * n + 3) = false)
    (hfail : ∀ n, n < k → ∃ e, env.f n = some e ∧ shouldRetry e = true)
    (hok : env.f k = none) (hfuel : k ≤ fuel) :
    (g.Dos env shouldRetry fuel).outcome = Outcome.returned none ∧
    (callResults (g.Dos env shouldRetry fuel).trace).length = k + 1 ∧
    waited (g.Dos env shouldRetry fuel).trace = List.replicate k false ∧
    (draws (g.Dos env shouldRetry fuel).trace).length = k :=
  Dos_scripted g env shouldRetry k fuel none h1 h2 h0 hd hfail hok
    (fun _ h => Option.noConfusion h) hfuel

/-- Witness of `Dos_eventual_success` on `Example`: the default retrier, a context whose
deadline expires long after the run (at instant 100), and an `f` that fails twice before it
succeeds. -/
theorem Dos_eventual_success_witness :
    (envLateDeadline 2 none).ctxDone 100 = true ∧
    (defaultGosyphus.Dos (envLateDeadline 2 none) (fun _ => true) 2).outcome
      = Outcome.returned none ∧
    (callResults (defaultGosyphus.Dos (envLateDeadline 2 none) (fun _ => true) 2).trace).length
      = 3 ∧
    waited (defaultGosyphus.Dos (envLateDeadline 2 none) (fun _ => true) 2).trace
      = [false, false] ∧
    (draws (defaultGosyphus.Dos (envLateDeadline 2 none) (fun _ => true) 2).trace).length
      = 2 :=
  ⟨by decide,
   Dos_eventual_success defaultGosyphus (envLateDeadline 2 none) (fun _ => true) 2 2
    (by decide) (by decide) rfl
    (fun n hn => by
      simp only [envLateDeadline, decide_eq_false_iff_not]
      omega)
    (fun n hn => ⟨0, by simp only [envLateDeadline]; rw [if_pos hn], rfl⟩)
    (by simp [envLateDeadline]) (le_refl 2)⟩

/-- C2: with `1 ≤ initial ≤ max`, a context that is not expired at entry and does not fire
during the run, and an `f` whose first `k` calls fail with errors that `shouldRetry` accepts
and whose next call fails with an error `e` that it rejects, `Dos` returns `e` itself after
exactly `k + 1` calls of `f`, exactly `k` waits and exactly `k` draws; for `k = 0` that is
one call, no draw and no wait, and nothing is asked of the context after entry.  Of the
context only this is used: `Done` is open at the instants `3, 5, ..., 2 * k + 1` at which
the `k` waits of the run are resolved. -/
theorem Dos_eventual_failure {ε : Type} (g : Gosyphus) (env : Env ε) (shouldRetry : ε → Bool)
    (k fuel : Nat) (e : ε) (h1 : 1 ≤ g.initial) (h2 : g.initial ≤ g.max)
    (h0 : env.ctxErr 0 = none) (hd : ∀ n, n < k → env.ctxDone (2 * n + 3) = false)
    (hfail : ∀ n, n < k → ∃ e', env.f n = some e' ∧ shouldRetry e' = true)
    (hlast : env.f k = some e) (hrej : shouldRetry e = false) (hfuel : k ≤ fuel) :
    (g.Dos env shouldRetry fuel).outcome = Outcome.returned (some e) ∧
    (callResults (g.Dos env shouldRetry fuel).trace).length = k + 1 ∧
    waited (g.Dos env shouldRetry fuel).trace = List.replicate k false ∧
    (draws (g.Dos env shouldRetry fuel).trace).length = k :=
  Dos_scripted g env shouldRetry k fuel (some e) h1 h2 h0 hd hfail hlast
    (fun e' h => by cases h; exact hrej) hfuel

/-- Witness of `Dos_eventual_failure` on `Example_shouldRetry`: the default retrier, a
context whose deadline expires long after the run (at instant 100), and an `f` that fails
twice with the error 0, which is retried, and then with the error 9, which is not. -/
theorem Dos_eventual_failure_witness :
    (envLateDeadline 2 (some 9)).ctxDone 100 = true ∧
    (defaultGosyphus.Dos (envLateDeadline 2 (some 9)) (fun e => e != 9) 2).outcome
      = Outcome.returned (some 9) ∧
    (callResults
      (defaultGosyphus.Dos (envLateDeadline 2 (some 9)) (fun e => e != 9) 2).trace).length
      = 3 ∧
    waited (defaultGosyphus.Dos (envLateDeadline 2 (some 9)) (fun e => e != 9) 2).trace
      = [false, false] ∧
    (draws
      (defaultGosyphus.Dos (envLateDeadline 2 (some 9)) (fun e => e != 9) 2).trace).length
      = 2 :=
  ⟨by decide,
   Dos_eventual_failure defaultGosyphus (envLateDeadline 2 (some 9)) (fun e => e != 9) 2 2 9
    (by decide) (by decide) rfl
    (fun n hn => by
      simp only [envLateDeadline, decide_eq_false_iff_not]
      omega)
    (fun n hn => ⟨0, by simp only [envLateDeadline]; rw [if_pos hn], rfl⟩)
    (by simp [envLateDeadline]) rfl (le_refl 2)⟩

/-! ## Induction on the loop -/

/-- Induction principle for the loop of `Dos`: a property of the ceiling at entry and of the
run holds for every run of the loop as soon as it holds for the five ways in which an
iteration can stop and is kept by an iteration that retries. -/
theorem retryLoop_induction {ε : Type} (g : Gosyphus) (env : Env ε) (shouldRetry : ε → Bool)
    (P : Int → Run ε → Prop)
    (hrunning : ∀ d, P d (Run.mk Outcome.running []))
    (hcancel : ∀ d t, env.ctxDone t = true →
      P d (Run.mk (Outcome.returned (env.ctxErr t))
        [Event.wait true, Event.ctxErr (env.ctxErr t)]))
    (hsuccess : ∀ d n, env.f n = none →
      P d (Run.mk (Outcome.returned none) [Event.wait false, Event.call none]))
    (hreject : ∀ d e n, env.f n = some e → shouldRetry e = false →
      P d (Run.mk (Outcome.returned (some e))
        [Event.wait false, Event.call (some e), Event.classify e false]))
    (hpanic : ∀ d e n v, env.f n = some e → shouldRetry e = true →
      jitter (if wrapInt64 (d * 2) > g.max ∨ wrapInt64 (d * 2) ≤ 0 then g.max
        else wrapInt64 (d * 2)) v = none →
      P d (Run.mk Outcome.panicked
        [Event.wait false, Event.call (some e), Event.classify e true,
          Event.jitter (if wrapInt64 (d * 2) > g.max ∨ wrapInt64 (d * 2) ≤ 0 then g.max
            else wrapInt64 (d * 2)) none]))
    (hretry : ∀ d e n v w r, env.f n = some e → shouldRetry e = true →
      jitter (if wrapInt64 (d * 2) > g.max ∨ wrapInt64 (d * 2) ≤ 0 then g.max
        else wrapInt64 (d * 2)) v = some w →
      P (if wrapInt64 (d * 2) > g.max ∨ wrapInt64 (d * 2) ≤ 0 then g.max
        else wrapInt64 (d * 2)) r →
      P d (Run.after
        [Event.wait false, Event.call (some e), Event.classify e true,
          Event.jitter (if wrapInt64 (d * 2) > g.max ∨ wrapInt64 (d * 2) ≤ 0 then g.max
            else wrapInt64 (d * 2)) (some w)] r)) :
    ∀ (fuel : Nat) (d : Int) (st : St), P d (retryLoop g env shouldRetry fuel d st) := by
  intro fuel
  induction fuel with
  | zero =>
    intro d st
    exact hrunning d
  | succ fuel ih =>
    intro d st
    rw [retryLoop]
    split
    · next hc => exact hcancel d _ hc.1
    · split
      · next hf => exact hsuccess d _ hf
      · next err hf =>
        split
        · next hs => exact hreject d err _ hf hs
        · next hs =>
          have hs' : shouldRetry err = true := by
            cases hb : shouldRetry err
            · exact absurd hb hs
            · rfl
          dsimp only
          split
          · next hj => exact hpanic d err _ _ hf hs' hj
          · next w hj => exact hretry d err _ _ w _ hf hs' hj (ih _ _)

/-- Case analysis on a run of `Dos`: it ends at entry in one of four ways, or enters the
loop with the ceiling `initial`. -/
theorem Dos_cases {ε : Type} (g : Gosyphus) (env : Env ε) (shouldRetry : ε → Bool)
    (fuel : Nat) (P : Run ε → Prop)
    (hexpired : ∀ c, env.ctxErr 0 = some c →
      P (Run.mk (Outcome.returned (env.ctxErr 1))
        [Event.ctxErr (some c), Event.ctxErr (env.ctxErr 1)]))
    (hsuccess : env.ctxErr 0 = none → env.f 0 = none →
      P (Run.mk (Outcome.returned none) [Event.ctxErr none, Event.call none]))
    (hreject : ∀ e, env.ctxErr 0 = none → env.f 0 = some e → shouldRetry e = false →
      P (Run.mk (Outcome.returned (some e))
        [Event.ctxErr none, Event.call (some e), Event.classify e false]))
    (hpanic : ∀ e v, env.ctxErr 0 = none → env.f 0 = some e → shouldRetry e = true →
      jitter g.initial v = none →
      P (Run.mk Outcome.panicked
        [Event.ctxErr none, Event.call (some e), Event.classify e true,
          Event.jitter g.initial none]))
    (hloop : ∀ e v w st, env.ctxErr 0 = none → env.f 0 = some e → shouldRetry e = true →
      jitter g.initial v = some w →
      P (Run.after
        [Event.ctxErr none, Event.call (some e), Event.classify e true,
          Event.jitter g.initial (some w)]
        (retryLoop g env shouldRetry fuel g.initial st))) :
    P (g.Dos env shouldRetry fuel) := by
  rw [Gosyphus.Dos]
  split
  · next c hc => exact hexpired c hc
  · next hc =>
    split
    · next hf => exact hsuccess hc hf
    · next err hf =>
      split
      · next hs => exact hreject err hc hf hs
      · next hs =>
        have hs' : shouldRetry err = true := by
          cases hb : shouldRetry err
          · exact absurd hb hs
          · rfl
        dsimp only
        split
        · next hj => exact hpanic err _ hc hf hs' hj
        · next w hj => exact hloop err _ w _ hc hf hs' hj

theorem EndsBy_append {ε : Type} (env : Env ε) (shouldRetry : ε → Bool) (r : Option ε)
    (evs tr : List (Event ε)) (h : EndsBy env shouldRetry r tr) :
    EndsBy env shouldRetry r (evs ++ tr) := by
  rcases h with ⟨hr, pre, hp⟩ | ⟨t, pre, hr, ht, hp⟩ | ⟨e, pre, hr, hs, hp⟩
  · exact Or.inl ⟨hr, evs ++ pre, by rw [hp, List.append_assoc]⟩
  · exact Or.inr (Or.inl ⟨t, evs ++ pre, hr, ht, by rw [hp, List.append_assoc]⟩)
  · exact Or.inr (Or.inr ⟨e, evs ++ pre, hr, hs, by rw [hp, List.append_assoc]⟩)

/-- A run of the loop that returns ends in one of the three ways of `EndsBy`. -/
theorem retryLoop_returned_endsBy {ε : Type} (g : Gosyphus) (env : Env ε)
    (shouldRetry : ε → Bool) (fuel : Nat) (d : Int) (st : St) (r : Option ε)
    (h : (retryLoop g env shouldRetry fuel d st).outcome = Outcome.returned r) :
    EndsBy env shouldRetry r (retryLoop g env shouldRetry fuel d st).trace := by
  revert h
  refine retryLoop_induction g env shouldRetry
    (fun _ run => run.outcome = Outcome.returned r → EndsBy env shouldRetry r run.trace)
    ?_ ?_ ?_ ?_ ?_ ?_ fuel d st
  · intro _ h
    cases h
  · intro _ t ht h
    cases h
    exact Or.inr (Or.inl ⟨t, [Event.wait true], rfl, Or.inl ht, rfl⟩)
  · intro _ _ _ h
    cases h
    exact Or.inl ⟨rfl, [Event.wait false], rfl⟩
  · intro _ e _ _ hs h
    cases h
    exact Or.inr (Or.inr ⟨e, [Event.wait false], rfl, hs, rfl⟩)
  · intro _ e _ v _ _ _ h
    cases h
  · intro _ e _ v w run _ _ _ ih h
    exact EndsBy_append env shouldRetry r _ _ (ih h)

/-- A run of `Dos` that returns ends in one of the three ways of `EndsBy`. -/
theorem Dos_returned_endsBy {ε : Type} (g : Gosyphus) (env : Env ε)
    (shouldRetry : ε → Bool) (fuel : Nat) (r : Option ε)
    (h : (g.Dos env shouldRetry fuel).outcome = Outcome.returned r) :
    EndsBy env shouldRetry r (g.Dos env shouldRetry fuel).trace := by
  revert h
  refine Dos_cases g env shouldRetry fuel
    (fun run => run.outcome = Outcome.returned r → EndsBy env shouldRetry r run.trace)
    ?_ ?_ ?_ ?_ ?_
  · intro c hc h
    cases h
    exact Or.inr (Or.inl ⟨1, [Event.ctxErr (some c)], rfl,
      Or.inr ⟨rfl, by rw [hc]; exact Option.some_ne_none c⟩, rfl⟩)
  · intro _ _ h
    cases h
    exact Or.inl ⟨rfl, [Event.ctxErr none], rfl⟩
  · intro e _ _ hs h
    cases h
    exact Or.inr (Or.inr ⟨e, [Event.ctxErr none], rfl, hs, rfl⟩)
  · intro e v _ _ _ _ h
    cases h
  · intro e v w st _ _ _ _ h
    exact EndsBy_append env shouldRetry r _ _
      (retryLoop_returned_endsBy g env shouldRetry fuel g.initial st r h)

/-- Every result of a call of `f` recorded by the loop is a result `f` gave. -/
theorem retryLoop_callResults {ε : Type} (g : Gosyphus) (env : Env ε)
    (shouldRetry : ε → Bool) (fuel : Nat) (d : Int) (st : St) :
    ∀ x ∈ callResults (retryLoop g env shouldRetry fuel d st).trace, ∃ n, env.f n = x := by
  refine retryLoop_induction g env shouldRetry
    (fun _ run => ∀ x ∈ callResults run.trace, ∃ n, env.f n = x) ?_ ?_ ?_ ?_ ?_ ?_ fuel d st
  · intro _ x hx
    simp [callResults] at hx
  · intro _ t _ x hx
    simp [callResults] at hx
  · intro _ n hn x hx
    simp only [callResults, List.mem_singleton] at hx
    exact ⟨n, by rw [hn, hx]⟩
  · intro _ e n hn _ x hx
    simp only [callResults, List.mem_singleton] at hx
    exact ⟨n, by rw [hn, hx]⟩
  · intro _ e n v hn _ _ x hx
    simp only [callResults, List.mem_singleton] at hx
    exact ⟨n, by rw [hn, hx]⟩
  · intro _ e n v w run hn _ _ ih x hx
    rw [Run.after, callResults_append] at hx
    simp only [callResults, List.mem_append, List.mem_singleton] at hx
    rcases hx with h1 | h2
    · exact ⟨n, by rw [hn, h1]⟩
    · exact ih x h2

/-- Every result of a call of `f` recorded by `Dos` is a result `f` gave. -/
theorem Dos_callResults {ε : Type} (g : Gosyphus) (env : Env ε)
    (shouldRetry : ε → Bool) (fuel : Nat) :
    ∀ x ∈ callResults (g.Dos env shouldRetry fuel).trace, ∃ n, env.f n = x := by
  refine Dos_cases g env shouldRetry fuel
    (fun run => ∀ x ∈ callResults run.trace, ∃ n, env.f n = x) ?_ ?_ ?_ ?_ ?_
  · intro c _ x hx
    simp [callResults] at hx
  · intro _ hf x hx
    simp only [callResults, List.mem_singleton] at hx
    exact ⟨0, by rw [hf, hx]⟩
  · intro e _ hf _ x hx
    simp only [callResults, List.mem_singleton] at hx
    exact ⟨0, by rw [hf, hx]⟩
  · intro e v _ hf _ _ x hx
    simp only [callResults, List.mem_singleton] at hx
    exact ⟨0, by rw [hf, hx]⟩
  · intro e v w st _ hf _ _ x hx
    rw [Run.after, callResults_append] at hx
    simp only [callResults, List.mem_append, List.mem_singleton] at hx
    rcases hx with h1 | h2
    · exact ⟨0, by rw [hf, h1]⟩
    · exact retryLoop_callResults g env shouldRetry fuel g.initial st x h2

/-! ## What a run returns -/

/-- C9: a run of `Dos` that returns `r` ends in one of three ways: its last interaction is a
call of `f` that succeeded and `r` is nil; or its last interaction is a call of `ctx.Err()`
and `r` is the value of that call; or its last interactions are a call of `f` that returned
the error `e` and the call of `shouldRetry` that rejected `e`, and `r` is `e` itself.  In the
first and the third case `r` is the result of the last call of `f`. -/
theorem Dos_returns_verbatim {ε : Type} (g : Gosyphus) (env : Env ε)
    (shouldRetry : ε → Bool) (fuel : Nat) (r : Option ε)
    (h : (g.Dos env shouldRetry fuel).outcome = Outcome.returned r) :
    (r = none ∧ (∃ pre, (g.Dos env shouldRetry fuel).trace = pre ++ [Event.call none]) ∧
      (callResults (g.Dos env shouldRetry fuel).trace).getLast? = some none) ∨
    (∃ t pre, r = env.ctxErr t ∧
      (g.Dos env shouldRetry fuel).trace = pre ++ [Event.ctxErr r]) ∨
    (∃ e pre, r = some e ∧
      (g.Dos env shouldRetry fuel).trace
        = pre ++ [Event.call (some e), Event.classify e false] ∧
      (callResults (g.Dos env shouldRetry fuel).trace).getLast? = some (some e)) := by
  rcases Dos_returned_endsBy g env shouldRetry fuel r h with
    ⟨hr, pre, hp⟩ | ⟨t, pre, hr, _, hp⟩ | ⟨e, pre, hr, _, hp⟩
  · refine Or.inl ⟨hr, ⟨pre, hp⟩, ?_⟩
    rw [hp, callResults_append]
    simp [callResults]
  · exact Or.inr (Or.inl ⟨t, pre, hr, hp⟩)
  · refine Or.inr (Or.inr ⟨e, pre, hr, hp, ?_⟩)
    rw [hp, callResults_append]
    simp [callResults]

/-- Witness of `Dos_returns_verbatim`: with a deadline that expires during the third wait and
an `f` that always fails, the run returns the value of `ctx.Err()`, called last. -/
theorem Dos_returns_verbatim_witness :
    (defaultGosyphus.Dos envDeadline (fun _ => true) 9).outcome = Outcome.returned (some 1) ∧
    ((some 1 = none ∧
        (∃ pre, (defaultGosyphus.Dos envDeadline (fun _ => true) 9).trace
          = pre ++ [Event.call none]) ∧
        (callResults (defaultGosyphus.Dos envDeadline (fun _ => true) 9).trace).getLast?
          = some none) ∨
      (∃ t pre, some 1 = envDeadline.ctxErr t ∧
        (defaultGosyphus.Dos envDeadline (fun _ => true) 9).trace
          = pre ++ [Event.ctxErr (some 1)]) ∨
      (∃ e pre, some 1 = some e ∧
        (defaultGosyphus.Dos envDeadline (fun _ => true) 9).trace
          = pre ++ [Event.call (some e), Event.classify e false] ∧
        (callResults (defaultGosyphus.Dos envDeadline (fun _ => true) 9).trace).getLast?
          = some (some e))) :=
  ⟨by decide, Dos_returns_verbatim defaultGosyphus envDeadline (fun _ => true) 9 (some 1)
    (by decide)⟩

/-- C10: when `Do` returns `r`, either the last call of `f` succeeded (and `r` is nil), or
`r` is the value of the call of `ctx.Err()` that ends the run: `Do` does not return an error
of `f`.  With an `f` that always fails, what `Do` returns is always the value of
`ctx.Err()`; and for a context that keeps the contract of `context.Context` and has no error
but the deadline error `dl`, `Do` can return nothing but `dl`. -/
theorem Do_returns_ctx_error {ε : Type} (g : Gosyphus) (env : Env ε) (fuel : Nat)
    (r : Option ε) (h : (g.Do env fuel).outcome = Outcome.returned r) :
    ((r = none ∧ ∃ pre, (g.Do env fuel).trace = pre ++ [Event.call none]) ∨
      (∃ t pre, r = env.ctxErr t ∧ (g.Do env fuel).trace = pre ++ [Event.ctxErr r])) ∧
    ((∀ n, env.f n ≠ none) →
      ∃ t pre, r = env.ctxErr t ∧ (g.Do env fuel).trace = pre ++ [Event.ctxErr r]) ∧
    (∀ dl, (∀ n, env.f n ≠ none) → env.ErrStable → env.DoneHasErr →
      (∀ t e, env.ctxErr t = some e → e = dl) → r = some dl) := by
  have hdo : g.Do env fuel = g.Dos env (fun _ => true) fuel := rfl
  rw [hdo] at h ⊢
  have hends := Dos_returned_endsBy g env (fun _ => true) fuel r h
  have hfail : (∀ n, env.f n ≠ none) →
      ∃ t pre, r = env.ctxErr t ∧
        (env.ctxDone t = true ∨ (t = 1 ∧ env.ctxErr 0 ≠ none)) ∧
        (g.Dos env (fun _ => true) fuel).trace = pre ++ [Event.ctxErr r] := by
    intro hf
    rcases hends with ⟨_, pre, hp⟩ | ⟨t, pre, hr, ht, hp⟩ | ⟨e, pre, _, hs, _⟩
    · have hmem : (none : Option ε) ∈ callResults (g.Dos env (fun _ => true) fuel).trace := by
        rw [hp, callResults_append]
        simp [callResults]
      obtain ⟨n, hn⟩ := Dos_callResults g env (fun _ => true) fuel none hmem
      exact absurd hn (hf n)
    · exact ⟨t, pre, hr, ht, hp⟩
    · exact absurd hs (by simp)
  refine ⟨?_, ?_, ?_⟩
  · rcases hends with ⟨hr, pre, hp⟩ | ⟨t, pre, hr, _, hp⟩ | ⟨e, pre, _, hs, _⟩
    · exact Or.inl ⟨hr, pre, hp⟩
    · exact Or.inr ⟨t, pre, hr, hp⟩
    · exact absurd hs (by simp)
  · intro hf
    obtain ⟨t, pre, hr, _, hp⟩ := hfail hf
    exact ⟨t, pre, hr, hp⟩
  · intro dl hf hstable hdone hdl
    obtain ⟨t, pre, hr, ht, _⟩ := hfail hf
    rcases ht with ht | ⟨ht, h0⟩
    · cases hc : env.ctxErr t with
      | none => exact absurd hc (hdone t ht)
      | some e => rw [hr, hc, hdl t e hc]
    · subst ht
      cases hc : env.ctxErr 0 with
      | none => exact absurd hc h0
      | some e =>
        have h1 := hstable 0 e hc
        rw [hr, h1, hdl 0 e hc]

/-- Witness of `Do_returns_ctx_error` on `TestCtxEventuallyDone`: a deadline (error 1) that
expires during a wait and an `f` that always fails (error 0); `Do` returns the deadline
error. -/
theorem Do_returns_ctx_error_witness :
    ((New (1 * millisecond) (30 * millisecond)).Do envDeadline 9).outcome
      = Outcome.returned (some 1) ∧
    (∀ n, envDeadline.f n ≠ none) ∧ envDeadline.ErrStable ∧ envDeadline.DoneHasErr ∧
    (∀ t e, envDeadline.ctxErr t = some e → e = 1) ∧
    (∃ t pre, some 1 = envDeadline.ctxErr t ∧
      ((New (1 * millisecond) (30 * millisecond)).Do envDeadline 9).trace
        = pre ++ [Event.ctxErr (some 1)]) :=
  have hf : ∀ n, envDeadline.f n ≠ none := fun _ => Option.some_ne_none 0
  have hs : envDeadline.ErrStable := by
    intro t e ht
    simp only [envDeadline] at ht ⊢
    split_ifs at ht ⊢ with h1 h2
    · omega
    · exact ht
  have hd : envDeadline.DoneHasErr := by
    intro t ht
    simp only [envDeadline, decide_eq_true_eq] at ht ⊢
    rw [if_neg (by omega)]
    exact Option.some_ne_none 1
  have hdl : ∀ t e, envDeadline.ctxErr t = some e → e = 1 := by
    intro t e ht
    simp only [envDeadline] at ht
    split_ifs at ht
    exact (Option.some.inj ht).symm
  have key := Do_returns_ctx_error (New (1 * millisecond) (30 * millisecond)) envDeadline 9
    (some 1) (by decide)
  ⟨by decide, hf, hs, hd, hdl, key.2.1 hf⟩

/-! ## The ceilings and the waits of a run -/

theorem jitter_some_bounds (d : Int) (v : Nat) (w : Int) (hd : 1 ≤ d)
    (h : jitter d v = some w) : 0 ≤ w ∧ w < d := by
  obtain ⟨w', hw', h0, hlt⟩ := jitter_of_pos d v hd
  rw [hw'] at h
  cases h
  exact ⟨h0, hlt⟩

theorem jitter_ne_none (d : Int) (v : Nat) (hd : 1 ≤ d) : jitter d v ≠ none := by
  obtain ⟨w', hw', -, -⟩ := jitter_of_pos d v hd
  rw [hw']
  exact Option.some_ne_none w'

/-- The ceilings of the loop, entered with the `i`-th exact ceiling, are the exact ceilings
that follow it. -/
theorem retryLoop_ceilings {ε : Type} (g : Gosyphus) (env : Env ε) (shouldRetry : ε → Bool)
    (h3 : g.max ≤ maxInt64) (fuel : Nat) (d : Int) (st : St) :
    1 ≤ d → d ≤ g.max → ∀ i, d = idealCeiling g i →
      ∀ j c, (ceilings (retryLoop g env shouldRetry fuel d st).trace)[j]? = some c →
        c = idealCeiling g (i + 1 + j) := by
  refine retryLoop_induction g env shouldRetry
    (fun d run => 1 ≤ d → d ≤ g.max → ∀ i, d = idealCeiling g i →
      ∀ j c, (ceilings run.trace)[j]? = some c → c = idealCeiling g (i + 1 + j))
    ?_ ?_ ?_ ?_ ?_ ?_ fuel d st
  · intro _ _ _ _ _ j c hc
    simp [ceilings] at hc
  · intro _ t _ _ _ _ _ j c hc
    simp [ceilings] at hc
  · intro _ _ _ _ _ _ _ j c hc
    simp [ceilings] at hc
  · intro _ e _ _ _ _ _ _ _ j c hc
    simp [ceilings] at hc
  · intro d e _ v _ _ _ hd1 hd2 i hi j c hc
    simp only [ceilings] at hc
    cases j with
    | zero =>
      rw [List.getElem?_cons_zero] at hc
      rw [← Option.some.inj hc, nextCeiling_exact g d hd1 hd2 h3, hi]
      rfl
    | succ j => simp at hc
  · intro d e _ v w run _ _ _ ih hd1 hd2 i hi j c hc
    rw [Run.after, ceilings_append] at hc
    simp only [ceilings, List.cons_append, List.nil_append] at hc
    have hnext := nextCeiling_exact g d hd1 hd2 h3
    cases j with
    | zero =>
      rw [List.getElem?_cons_zero] at hc
      rw [← Option.some.inj hc, hnext, hi]
      rfl
    | succ j =>
      rw [List.getElem?_cons_succ] at hc
      have hb := nextCeiling_bounds g d (le_trans hd1 hd2)
      have := ih hb.1 hb.2 (i + 1) (by rw [hnext, hi]; rfl) j c hc
      rw [this]
      congr 1
      omega

/-- The draws of the loop are made with a ceiling between 1 and `max` and give a wait that
is at least 0 and below the ceiling. -/
theorem retryLoop_draws {ε : Type} (g : Gosyphus) (env : Env ε) (shouldRetry : ε → Bool)
    (hmax : 1 ≤ g.max) (fuel : Nat) (d : Int) (st : St) :
    ∀ p ∈ draws (retryLoop g env shouldRetry fuel d st).trace,
      1 ≤ p.1 ∧ p.1 ≤ g.max ∧ ∃ v, p.2 = some v ∧ 0 ≤ v ∧ v < p.1 := by
  refine retryLoop_induction g env shouldRetry
    (fun _ run => ∀ p ∈ draws run.trace,
      1 ≤ p.1 ∧ p.1 ≤ g.max ∧ ∃ v, p.2 = some v ∧ 0 ≤ v ∧ v < p.1)
    ?_ ?_ ?_ ?_ ?_ ?_ fuel d st
  · intro _ p hp
    simp [draws] at hp
  · intro _ t _ p hp
    simp [draws] at hp
  · intro _ _ _ p hp
    simp [draws] at hp
  · intro _ e _ _ _ p hp
    simp [draws] at hp
  · intro d e _ v _ _ hj p _
    exact absurd hj (jitter_ne_none _ v (nextCeiling_bounds g d hmax).1)
  · intro d e _ v w run _ _ hj ih p hp
    rw [Run.after, draws_append] at hp
    simp only [draws, List.cons_append, List.nil_append, List.mem_cons] at hp
    have hb := nextCeiling_bounds g d hmax
    rcases hp with h1 | h2
    · rw [h1]
      exact ⟨hb.1, hb.2, w, rfl, jitter_some_bounds _ v w hb.1 hj⟩
    · exact ih p h2

/-- C6: with `1 ≤ initial ≤ max` and `max` a 64-bit duration, the ceilings passed to
`jitter` in a run of `Dos` are `d_0 = initial` and `d_(i+1) = min (2 * d_i) max`, computed in
unbounded integers: each of them is the exact ceiling `idealCeiling g i` and lies between 1
and `max`; and a doubling that leaves the 64-bit range wraps to a value that the test
`d <= 0` catches. -/
theorem Dos_ceilings_exact {ε : Type} (g : Gosyphus) (env : Env ε) (shouldRetry : ε → Bool)
    (fuel : Nat) (h1 : 1 ≤ g.initial) (h2 : g.initial ≤ g.max) (h3 : g.max ≤ maxInt64) :
    (∀ c, (ceilings (g.Dos env shouldRetry fuel).trace)[0]? = some c → c = g.initial) ∧
    (∀ (i : Nat) (c c' : Int), (ceilings (g.Dos env shouldRetry fuel).trace)[i]? = some c →
      (ceilings (g.Dos env shouldRetry fuel).trace)[i + 1]? = some c' →
      c' = min (2 * c) g.max) ∧
    (∀ (i : Nat) (c : Int), (ceilings (g.Dos env shouldRetry fuel).trace)[i]? = some c →
      c = idealCeiling g i ∧ 1 ≤ c ∧ c ≤ g.max) ∧
    (∀ d, 1 ≤ d → d ≤ g.max → maxInt64 < d * 2 → wrapInt64 (d * 2) ≤ 0) := by
  have key : ∀ i c, (ceilings (g.Dos env shouldRetry fuel).trace)[i]? = some c →
      c = idealCeiling g i := by
    refine Dos_cases g env shouldRetry fuel
      (fun run => ∀ i c, (ceilings run.trace)[i]? = some c → c = idealCeiling g i)
      ?_ ?_ ?_ ?_ ?_
    · intro c _ i c' hc
      simp [ceilings] at hc
    · intro _ _ i c hc
      simp [ceilings] at hc
    · intro e _ _ _ i c hc
      simp [ceilings] at hc
    · intro e v _ _ _ _ i c hc
      simp only [ceilings] at hc
      cases i with
      | zero =>
        rw [List.getElem?_cons_zero] at hc
        exact (Option.some.inj hc).symm
      | succ i => simp at hc
    · intro e v w st _ _ _ _ i c hc
      rw [Run.after, ceilings_append] at hc
      simp only [ceilings, List.cons_append, List.nil_append] at hc
      cases i with
      | zero =>
        rw [List.getElem?_cons_zero] at hc
        exact (Option.some.inj hc).symm
      | succ i =>
        rw [List.getElem?_cons_succ] at hc
        have := retryLoop_ceilings g env shouldRetry h3 fuel g.initial st h1 h2 0 rfl i c hc
        rw [this]
        congr 1
        omega
  refine ⟨?_, ?_, ?_, ?_⟩
  · intro c hc
    exact key 0 c hc
  · intro i c c' hc hc'
    rw [key i c hc, key (i + 1) c' hc']
    rfl
  · intro i c hc
    have hb := idealCeiling_bounds g h1 h2 i
    rw [key i c hc]
    exact ⟨rfl, hb.1, hb.2⟩
  · intro d _ hd2 hov
    exact wrapInt64_double_overflow d hov (le_trans hd2 h3)

/-- Witness of `Dos_ceilings_exact`: from `initial = 2^62` the first doubling leaves the
64-bit range, and the ceiling becomes `max = 2^63 - 1`. -/
theorem Dos_ceilings_exact_witness :
    ceilings ((Gosyphus.mk (2 ^ 62) maxInt64).Dos
        (scripted 3 (fun _ => 7) none (fun n => 5 + n)) (fun _ => true) 3).trace
      = [2 ^ 62, 2 ^ 63 - 1, 2 ^ 63 - 1] ∧
    wrapInt64 (2 ^ 62 * 2) = -(2 ^ 63) ∧
    (2 ^ 63 - 1 : Int) = min (2 * 2 ^ 62) (Gosyphus.mk (2 ^ 62) maxInt64).max :=
  ⟨by decide, by decide,
   (Dos_ceilings_exact (Gosyphus.mk (2 ^ 62) maxInt64)
      (scripted 3 (fun _ => 7) none (fun n => 5 + n)) (fun _ => true) 3
      (by decide) (by decide) (by decide)).2.1 0 (2 ^ 62) (2 ^ 63 - 1)
      (by decide) (by decide)⟩

/-- C7: for a ceiling `d ≥ 1` and any value of the random source, `jitter d` is a wait in
`[0, d)`; and with `1 ≤ initial ≤ max`, the `i`-th draw of a run of `Dos` is made with the
`i`-th ceiling `d_i` of the run and gives a wait `w_i` with `0 ≤ w_i < d_i ≤ max`. -/
theorem Dos_waits_below_ceiling {ε : Type} (g : Gosyphus) (env : Env ε)
    (shouldRetry : ε → Bool) (fuel : Nat) (h1 : 1 ≤ g.initial) (h2 : g.initial ≤ g.max) :
    (∀ (d : Int) (v : Nat), 1 ≤ d → ∃ w, jitter d v = some w ∧ 0 ≤ w ∧ w < d) ∧
    (∀ (i : Nat) (d : Int) (w : Option Int),
      (draws (g.Dos env shouldRetry fuel).trace)[i]? = some (d, w) →
      (ceilings (g.Dos env shouldRetry fuel).trace)[i]? = some d ∧
      ∃ v, w = some v ∧ 0 ≤ v ∧ v < d ∧ d ≤ g.max) := by
  have key : ∀ p ∈ draws (g.Dos env shouldRetry fuel).trace,
      1 ≤ p.1 ∧ p.1 ≤ g.max ∧ ∃ v, p.2 = some v ∧ 0 ≤ v ∧ v < p.1 := by
    refine Dos_cases g env shouldRetry fuel
      (fun run => ∀ p ∈ draws run.trace,
        1 ≤ p.1 ∧ p.1 ≤ g.max ∧ ∃ v, p.2 = some v ∧ 0 ≤ v ∧ v < p.1)
      ?_ ?_ ?_ ?_ ?_
    · intro c _ p hp
      simp [draws] at hp
    · intro _ _ p hp
      simp [draws] at hp
    · intro e _ _ _ p hp
      simp [draws] at hp
    · intro e v _ _ _ hj p _
      exact absurd hj (jitter_ne_none _ v h1)
    · intro e v w st _ _ _ hj p hp
      rw [Run.after, draws_append] at hp
      simp only [draws, List.cons_append, List.nil_append, List.mem_cons] at hp
      rcases hp with hp1 | hp2
      · rw [hp1]
        exact ⟨h1, h2, w, rfl, jitter_some_bounds _ v w h1 hj⟩
      · exact retryLoop_draws g env shouldRetry (le_trans h1 h2) fuel g.initial st p hp2
  refine ⟨fun d v hd => jitter_of_pos d v hd, ?_⟩
  intro i d w hi
  constructor
  · rw [ceilings_eq_map_draws, List.getElem?_map, hi]
    rfl
  · obtain ⟨_, hle, v, hv, h0, hlt⟩ := key (d, w) (List.getElem?_mem hi)
    exact ⟨v, hv, h0, hlt, hle⟩

/-- Witness of `Dos_waits_below_ceiling`: the second draw of a run of `New(1ms, 30ms)` is
made with the ceiling 2 ms and gives the wait of 6 ns. -/
theorem Dos_waits_below_ceiling_witness :
    (draws ((New (1 * millisecond) (30 * millisecond)).Dos
        (scripted 3 (fun _ => 7) none (fun n => 5 + n)) (fun _ => true) 3).trace)[1]?
      = some (2000000, some 6) ∧
    (∃ w, jitter 2000000 6 = some w ∧ 0 ≤ w ∧ w < 2000000) ∧
    ((ceilings ((New (1 * millisecond) (30 * millisecond)).Dos
        (scripted 3 (fun _ => 7) none (fun n => 5 + n)) (fun _ => true) 3).trace)[1]?
      = some 2000000 ∧
      ∃ v, some (6 : Int) = some v ∧ 0 ≤ v ∧ v < 2000000 ∧
        2000000 ≤ (New (1 * millisecond) (30 * millisecond)).max) :=
  have key := Dos_waits_below_ceiling (New (1 * millisecond) (30 * millisecond))
    (scripted 3 (fun _ => 7) none (fun n => 5 + n)) (fun _ => true) 3 (by decide) (by decide)
  ⟨by decide, key.1 2000000 6 (by decide), key.2 1 2000000 (some 6) (by decide)⟩

/-! ## A wait that the context cuts short -/

/-- In the loop, a wait that is cut short by `ctx.Done()` is followed by one call of
`ctx.Err()`, whose value is returned; it is the first such wait, and what precedes it in the
loop, if anything, ends with a failed call of `f`, its acceptance by `shouldRetry` and the
draw of the wait. -/
theorem retryLoop_cancelled {ε : Type} (g : Gosyphus) (env : Env ε) (shouldRetry : ε → Bool)
    (fuel : Nat) (d : Int) (st : St)
    (h : Event.wait true ∈ (retryLoop g env shouldRetry fuel d st).trace) :
    ∃ pre t, env.ctxDone t = true ∧
      (retryLoop g env shouldRetry fuel d st).outcome = Outcome.returned (env.ctxErr t) ∧
      (retryLoop g env shouldRetry fuel d st).trace
        = pre ++ [Event.wait true, Event.ctxErr (env.ctxErr t)] ∧
      Event.wait true ∉ pre ∧
      (pre = [] ∨ ∃ pre' e n c w, env.f n = some e ∧ shouldRetry e = true ∧
        pre = pre' ++ [Event.call (some e), Event.classify e true, Event.jitter c (some w)]) := by
  revert h
  refine retryLoop_induction g env shouldRetry
    (fun _ run => Event.wait true ∈ run.trace →
      ∃ pre t, env.ctxDone t = true ∧ run.outcome = Outcome.returned (env.ctxErr t) ∧
        run.trace = pre ++ [Event.wait true, Event.ctxErr (env.ctxErr t)] ∧
        Event.wait true ∉ pre ∧
        (pre = [] ∨ ∃ pre' e n c w, env.f n = some e ∧ shouldRetry e = true ∧
          pre = pre' ++
            [Event.call (some e), Event.classify e true, Event.jitter c (some w)]))
    ?_ ?_ ?_ ?_ ?_ ?_ fuel d st
  · intro _ h
    simp at h
  · intro _ t ht _
    exact ⟨[], t, ht, rfl, rfl, List.not_mem_nil _, Or.inl rfl⟩
  · intro _ _ _ h
    simp at h
  · intro _ e _ _ _ h
    simp at h
  · intro _ e _ v _ _ _ h
    simp at h
  · intro c e n v w run hf hs _ ih h
    have hin : Event.wait true ∈ run.trace := by
      simpa [Run.after] using h
    obtain ⟨pre, t, ht, ho, hp, hnot, hpre⟩ := ih hin
    refine ⟨[Event.wait false, Event.call (some e), Event.classify e true,
      Event.jitter (if wrapInt64 (c * 2) > g.max ∨ wrapInt64 (c * 2) ≤ 0 then g.max
        else wrapInt64 (c * 2)) (some w)] ++ pre, t, ht, ho, ?_, ?_, Or.inr ?_⟩
    · rw [Run.after, hp, List.append_assoc]
    · simpa using hnot
    · rcases hpre with hnil | ⟨pre', e', n', c', w', hf', hs', hp'⟩
      · exact ⟨[Event.wait false], e, n, _, w, hf, hs, by rw [hnil]; rfl⟩
      · exact ⟨[Event.wait false, Event.call (some e), Event.classify e true,
          Event.jitter (if wrapInt64 (c * 2) > g.max ∨ wrapInt64 (c * 2) ≤ 0 then g.max
            else wrapInt64 (c * 2)) (some w)] ++ pre', e', n', c', w', hf', hs',
          by rw [hp', List.append_assoc]⟩

/-- In a run of `Dos`, a wait that `ctx.Done()` cuts short comes right after a call of `f`
that failed with an error `e`, the call of `shouldRetry` that accepted `e` and the draw of
the wait; it is followed by exactly one interaction, a call of `ctx.Err()`, and the run
returns the value of that call; no call of `f` follows. -/
theorem Dos_cancelled_shape {ε : Type} (g : Gosyphus) (env : Env ε)
    (shouldRetry : ε → Bool) (fuel : Nat)
    (h : Event.wait true ∈ (g.Dos env shouldRetry fuel).trace) :
    ∃ pre e n c w t, env.f n = some e ∧ shouldRetry e = true ∧ env.ctxDone t = true ∧
      (g.Dos env shouldRetry fuel).trace
        = pre ++ [Event.call (some e), Event.classify e true, Event.jitter c (some w),
            Event.wait true, Event.ctxErr (env.ctxErr t)] ∧
      (g.Dos env shouldRetry fuel).outcome = Outcome.returned (env.ctxErr t) ∧
      Event.wait true ∉ pre := by
  revert h
  refine Dos_cases g env shouldRetry fuel
    (fun run => Event.wait true ∈ run.trace →
      ∃ pre e n c w t, env.f n = some e ∧ shouldRetry e = true ∧ env.ctxDone t = true ∧
        run.trace
          = pre ++ [Event.call (some e), Event.classify e true, Event.jitter c (some w),
              Event.wait true, Event.ctxErr (env.ctxErr t)] ∧
        run.outcome = Outcome.returned (env.ctxErr t) ∧ Event.wait true ∉ pre)
    ?_ ?_ ?_ ?_ ?_
  · intro c _ h
    simp at h
  · intro _ _ h
    simp at h
  · intro e _ _ _ h
    simp at h
  · intro e v _ _ _ _ h
    simp at h
  · intro e v w st _ hf hs _ h
    have hin : Event.wait true ∈ (retryLoop g env shouldRetry fuel g.initial st).trace := by
      simpa [Run.after] using h
    obtain ⟨pre, t, ht, ho, hp, hnot, hpre⟩ :=
      retryLoop_cancelled g env shouldRetry fuel g.initial st hin
    rcases hpre with hnil | ⟨pre', e', n', c', w', hf', hs', hp'⟩
    · refine ⟨[Event.ctxErr none], e, 0, g.initial, w, t, hf, hs, ht, ?_, ho, ?_⟩
      · rw [Run.after, hp, hnil]
        rfl
      · simp
    · refine ⟨[Event.ctxErr none, Event.call (some e), Event.classify e true,
          Event.jitter g.initial (some w)] ++ pre', e', n', c', w', t, hf', hs', ht, ?_, ho, ?_⟩
      · rw [Run.after, hp, hp']
        simp
      · rw [hp'] at hnot
        simp only [List.mem_append, not_or] at hnot
        simpa using hnot.1

/-! ## `Do` and the package-level functions -/

/-- C11: for every classifier `shouldRetry` that returns true for every error, `g.Do` is the
same run as `g.Dos` with that classifier on the same context, `f`, scheduler and random
source: the same interactions in the same order, hence the same calls of `f`, the same waits
and the same draws, and the same value returned. -/
theorem Do_eq_Dos_alwaysRetry {ε : Type} (g : Gosyphus) (env : Env ε)
    (shouldRetry : ε → Bool) (fuel : Nat) (h : ∀ e, shouldRetry e = true) :
    g.Do env fuel = g.Dos env shouldRetry fuel ∧
    (g.Do env fuel).outcome = (g.Dos env shouldRetry fuel).outcome ∧
    callResults (g.Do env fuel).trace = callResults (g.Dos env shouldRetry fuel).trace ∧
    waited (g.Do env fuel).trace = waited (g.Dos env shouldRetry fuel).trace ∧
    draws (g.Do env fuel).trace = draws (g.Dos env shouldRetry fuel).trace := by
  have hsr : shouldRetry = fun _ => true := funext h
  have hrun : g.Do env fuel = g.Dos env shouldRetry fuel := by
    rw [hsr]
    rfl
  exact ⟨hrun, by rw [hrun], by rw [hrun], by rw [hrun], by rw [hrun]⟩

/-- Witness of `Do_eq_Dos_alwaysRetry`: a classifier written differently from the one of
`Do` (it compares the error with itself), on the run of `TestCtxEventuallyDone`. -/
theorem Do_eq_Dos_alwaysRetry_witness :
    (New (1 * millisecond) (30 * millisecond)).Do envDeadline 9
      = (New (1 * millisecond) (30 * millisecond)).Dos envDeadline (fun e => e == e) 9 ∧
    ((New (1 * millisecond) (30 * millisecond)).Do envDeadline 9).outcome
      = Outcome.returned (some 1) :=
  ⟨(Do_eq_Dos_alwaysRetry (New (1 * millisecond) (30 * millisecond)) envDeadline
      (fun e => e == e) 9 (fun e => by simp)).1, by decide⟩

/-- C12: the default retrier has `initial` = 1 second and `max` = 30 seconds (in nanoseconds),
satisfies `1 ≤ initial ≤ max` and is the value `New(1s, 30s)` returns; the package-level `Dos`
and `Do` are the runs of `New(1s, 30s).Dos` and `New(1s, 30s).Do`. -/
theorem default_is_New_1s_30s :
    defaultGosyphus.initial = 1 * second ∧ defaultGosyphus.max = 30 * second ∧
    second = 1000000000 ∧
    1 ≤ defaultGosyphus.initial ∧ defaultGosyphus.initial ≤ defaultGosyphus.max ∧
    defaultGosyphus = New (1 * second) (30 * second) ∧
    (∀ (ε : Type) (env : Env ε) (shouldRetry : ε → Bool) (fuel : Nat),
      Dos env shouldRetry fuel = (New (1 * second) (30 * second)).Dos env shouldRetry fuel) ∧
    (∀ (ε : Type) (env : Env ε) (fuel : Nat),
      Do env fuel = (New (1 * second) (30 * second)).Do env fuel) := by
  have hnew : defaultGosyphus = New (1 * second) (30 * second) := by decide
  refine ⟨rfl, rfl, rfl, by decide, by decide, hnew, ?_, ?_⟩
  · intro ε env shouldRetry fuel
    rw [← hnew]
    rfl
  · intro ε env fuel
    rw [← hnew]
    rfl

/-! ## No panic -/

theorem New_wellFormed (initial max : Int) :
    1 ≤ (New initial max).initial ∧ (New initial max).initial ≤ (New initial max).max := by
  simp only [New]
  split_ifs <;> constructor <;> omega

/-- With a maximum of at least 1 the loop does not panic. -/
theorem retryLoop_not_panicked {ε : Type} (g : Gosyphus) (env : Env ε)
    (shouldRetry : ε → Bool) (hmax : 1 ≤ g.max) (fuel : Nat) (d : Int) (st : St) :
    (retryLoop g env shouldRetry fuel d st).outcome ≠ Outcome.panicked := by
  refine retryLoop_induction g env shouldRetry
    (fun _ run => run.outcome ≠ Outcome.panicked) ?_ ?_ ?_ ?_ ?_ ?_ fuel d st
  · intro _ h
    cases h
  · intro _ t _ h
    cases h
  · intro _ _ _ h
    cases h
  · intro _ e _ _ _ h
    cases h
  · intro d e _ v _ _ hj _
    exact absurd hj (jitter_ne_none _ v (nextCeiling_bounds g d hmax).1)
  · intro _ e _ v w run _ _ _ ih
    exact ih

/-- With `1 ≤ initial ≤ max` a run of `Dos` does not panic. -/
theorem Dos_not_panicked {ε : Type} (g : Gosyphus) (env : Env ε)
    (shouldRetry : ε → Bool) (fuel : Nat) (h1 : 1 ≤ g.initial) (h2 : g.initial ≤ g.max) :
    (g.Dos env shouldRetry fuel).outcome ≠ Outcome.panicked := by
  refine Dos_cases g env shouldRetry fuel (fun run => run.outcome ≠ Outcome.panicked)
    ?_ ?_ ?_ ?_ ?_
  · intro c _ h
    cases h
  · intro _ _ h
    cases h
  · intro e _ _ _ h
    cases h
  · intro e v _ _ _ hj _
    exact absurd hj (jitter_ne_none _ v h1)
  · intro e v w st _ _ _ _
    exact retryLoop_not_panicked g env shouldRetry (le_trans h1 h2) fuel g.initial st

/-- With `1 ≤ initial ≤ max` every draw of a run of `Dos` is made with a ceiling between 1
and `max` and gives a wait that is at least 0 and below the ceiling. -/
theorem Dos_draws_bounds {ε : Type} (g : Gosyphus) (env : Env ε)
    (shouldRetry : ε → Bool) (fuel : Nat) (h1 : 1 ≤ g.initial) (h2 : g.initial ≤ g.max) :
    ∀ p ∈ draws (g.Dos env shouldRetry fuel).trace,
      1 ≤ p.1 ∧ p.1 ≤ g.max ∧ ∃ v, p.2 = some v ∧ 0 ≤ v ∧ v < p.1 := by
  refine Dos_cases g env shouldRetry fuel
    (fun run => ∀ p ∈ draws run.trace,
      1 ≤ p.1 ∧ p.1 ≤ g.max ∧ ∃ v, p.2 = some v ∧ 0 ≤ v ∧ v < p.1)
    ?_ ?_ ?_ ?_ ?_
  · intro c _ p hp
    simp [draws] at hp
  · intro _ _ p hp
    simp [draws] at hp
  · intro e _ _ _ p hp
    simp [draws] at hp
  · intro e v _ _ _ hj p _
    exact absurd hj (jitter_ne_none _ v h1)
  · intro e v w st _ _ _ hj p hp
    rw [Run.after, draws_append] at hp
    simp only [draws, List.cons_append, List.nil_append, List.mem_cons] at hp
    rcases hp with hp1 | hp2
    · rw [hp1]
      exact ⟨h1, h2, w, rfl, jitter_some_bounds _ v w h1 hj⟩
    · exact retryLoop_draws g env shouldRetry (le_trans h1 h2) fuel g.initial st p hp2

/-- C15: for all durations `initial` and `max` (zero, negative and extreme values included)
every run of `Dos` and of `Do` on `New(initial, max)` calls `jitter` only with a ceiling
`d ≥ 1`, every such call returns a wait, and the run does not panic. -/
theorem New_Dos_never_panics {ε : Type} (initial max : Int) (env : Env ε)
    (shouldRetry : ε → Bool) (fuel : Nat) :
    (∀ d ∈ ceilings ((New initial max).Dos env shouldRetry fuel).trace, 1 ≤ d) ∧
    (∀ p ∈ draws ((New initial max).Dos env shouldRetry fuel).trace, p.2 ≠ none) ∧
    ((New initial max).Dos env shouldRetry fuel).outcome ≠ Outcome.panicked ∧
    (∀ d ∈ ceilings ((New initial max).Do env fuel).trace, 1 ≤ d) ∧
    (∀ p ∈ draws ((New initial max).Do env fuel).trace, p.2 ≠ none) ∧
    ((New initial max).Do env fuel).outcome ≠ Outcome.panicked := by
  have hwf := New_wellFormed initial max
  have key : ∀ sr : ε → Bool,
      (∀ d ∈ ceilings ((New initial max).Dos env sr fuel).trace, 1 ≤ d) ∧
      (∀ p ∈ draws ((New initial max).Dos env sr fuel).trace, p.2 ≠ none) ∧
      ((New initial max).Dos env sr fuel).outcome ≠ Outcome.panicked := by
    intro sr
    have hb := Dos_draws_bounds (New initial max) env sr fuel hwf.1 hwf.2
    refine ⟨?_, ?_, Dos_not_panicked (New initial max) env sr fuel hwf.1 hwf.2⟩
    · intro d hd
      rw [ceilings_eq_map_draws, List.mem_map] at hd
      obtain ⟨p, hp, hpd⟩ := hd
      rw [← hpd]
      exact (hb p hp).1
    · intro p hp
      obtain ⟨_, _, v, hv, _, _⟩ := hb p hp
      rw [hv]
      exact Option.some_ne_none v
  exact ⟨(key shouldRetry).1, (key shouldRetry).2.1, (key shouldRetry).2.2,
    (key (fun _ => true)).1, (key (fun _ => true)).2.1, (key (fun _ => true)).2.2⟩

/-! ## `jitter` on a ceiling that is not positive -/

/-- C17, counterexample: `jitter(0)` does not return 0, it panics in `rand.Int63n`, whatever
the random source delivers; a retrier whose `initial` is 0 (the zero value of the type)
panics at its first retry. -/
theorem jitter_zero_panics :
    jitter 0 0 = none ∧ jitter 0 12345 = none ∧
    ((Gosyphus.mk 0 0).Do (scripted 1 (fun _ => 7) none (fun n => 5 + n)) 3).outcome
      = Outcome.panicked ∧
    ((Gosyphus.mk 0 0).Do (scripted 1 (fun _ => 7) none (fun n => 5 + n)) 3).trace
      = [Event.ctxErr none, Event.call (some 7), Event.classify 7 true, Event.jitter 0 none] := by
  decide

/-- C17, amended: `jitter` returns only for a ceiling `d ≥ 1`, with a wait in `[0, d)`; for
`d ≤ 0`, in particular for 0, it panics; the smallest ceiling for which it returns, 1,
gives the wait 0. -/
theorem jitter_defined_from_one (d : Int) (v : Nat) :
    (d ≤ 0 → jitter d v = none) ∧
    (1 ≤ d → ∃ w, jitter d v = some w ∧ 0 ≤ w ∧ w < d) ∧
    jitter 1 v = some 0 := by
  refine ⟨?_, jitter_of_pos d v, ?_⟩
  · intro hd
    unfold jitter Int63n
    rw [if_pos hd]
  · obtain ⟨w, hw, h0, h1⟩ := jitter_of_pos 1 v (le_refl 1)
    rw [hw]
    congr 1
    omega

/-- Witness of `jitter_defined_from_one`: a negative ceiling and the ceiling 3. -/
theorem jitter_defined_from_one_witness :
    jitter (-5) 7 = none ∧ (∃ w, jitter 3 7 = some w ∧ 0 ≤ w ∧ w < 3) ∧ jitter 3 7 = some 1 :=
  ⟨(jitter_defined_from_one (-5) 7).1 (by decide),
   (jitter_defined_from_one 3 7).2.1 (by decide), by decide⟩

/-! ## The ceilings in closed form -/

theorem idealCeiling_closed (g : Gosyphus) (h1 : 1 ≤ g.initial) (h2 : g.initial ≤ g.max)
    (i : Nat) : idealCeiling g i = min (g.initial * 2 ^ i) g.max := by
  induction i with
  | zero =>
    simp only [idealCeiling, pow_zero, mul_one]
    rw [min_eq_left h2]
  | succ i ih =>
    simp only [idealCeiling]
    rw [ih]
    have hx : g.initial * 2 ^ (i + 1) = 2 * (g.initial * 2 ^ i) := by ring
    rw [hx]
    have hpos : 1 ≤ g.initial * 2 ^ i := by
      have : (1 : Int) ≤ 2 ^ i := one_le_pow₀ (by norm_num)
      nlinarith
    generalize g.initial * 2 ^ i = x at hpos
    rcases le_total x g.max with hle | hle
    · rw [min_eq_left hle]
    · rw [min_eq_right hle, min_eq_right (by omega), min_eq_right (by omega)]

theorem closedCeiling_mono (g : Gosyphus) (h1 : 1 ≤ g.initial) (i j : Nat) (hij : i ≤ j) :
    min (g.initial * 2 ^ i) g.max ≤ min (g.initial * 2 ^ j) g.max := by
  have hpow : (2 : Int) ^ i ≤ 2 ^ j := pow_le_pow_right₀ (by norm_num) hij
  exact min_le_min (mul_le_mul_of_nonneg_left hpow (by omega)) (le_refl _)

/-- With `1 ≤ initial ≤ max` and `max` a 64-bit duration, the `i`-th ceiling of a run of
`Dos` is the exact ceiling `idealCeiling g i`. -/
theorem Dos_ceilings_ideal {ε : Type} (g : Gosyphus) (env : Env ε) (shouldRetry : ε → Bool)
    (fuel : Nat) (h1 : 1 ≤ g.initial) (h2 : g.initial ≤ g.max) (h3 : g.max ≤ maxInt64) :
    ∀ (i : Nat) (c : Int), (ceilings (g.Dos env shouldRetry fuel).trace)[i]? = some c →
      c = idealCeiling g i := by
  refine Dos_cases g env shouldRetry fuel
    (fun run => ∀ (i : Nat) (c : Int), (ceilings run.trace)[i]? = some c →
      c = idealCeiling g i)
    ?_ ?_ ?_ ?_ ?_
  · intro c _ i c' hc
    simp [ceilings] at hc
  · intro _ _ i c hc
    simp [ceilings] at hc
  · intro e _ _ _ i c hc
    simp [ceilings] at hc
  · intro e v _ _ _ _ i c hc
    simp only [ceilings] at hc
    cases i with
    | zero =>
      rw [List.getElem?_cons_zero] at hc
      exact (Option.some.inj hc).symm
    | succ i => simp at hc
  · intro e v w st _ _ _ _ i c hc
    rw [Run.after, ceilings_append] at hc
    simp only [ceilings, List.cons_append, List.nil_append] at hc
    cases i with
    | zero =>
      rw [List.getElem?_cons_zero] at hc
      exact (Option.some.inj hc).symm
    | succ i =>
      rw [List.getElem?_cons_succ] at hc
      have := retryLoop_ceilings g env shouldRetry h3 fuel g.initial st h1 h2 0 rfl i c hc
      rw [this]
      congr 1
      omega

/-- C18: with `1 ≤ initial ≤ max` and `max` a 64-bit duration, the ceiling of the `(i+1)`-th
wait of a run of `Dos` is `min (initial * 2^i) max` in unbounded integers; so the ceilings do
not decrease, lie between `initial` and `max`, and stay at `max` once they have reached it,
also when `2 * max` is beyond the 64-bit range. -/
theorem Dos_ceilings_closed_form {ε : Type} (g : Gosyphus) (env : Env ε)
    (shouldRetry : ε → Bool) (fuel : Nat) (h1 : 1 ≤ g.initial) (h2 : g.initial ≤ g.max)
    (h3 : g.max ≤ maxInt64) :
    (∀ (i : Nat) (c : Int), (ceilings (g.Dos env shouldRetry fuel).trace)[i]? = some c →
      c = min (g.initial * 2 ^ i) g.max) ∧
    (∀ (i j : Nat) (c c' : Int), i ≤ j →
      (ceilings (g.Dos env shouldRetry fuel).trace)[i]? = some c →
      (ceilings (g.Dos env shouldRetry fuel).trace)[j]? = some c' → c ≤ c') ∧
    (∀ (i : Nat) (c : Int), (ceilings (g.Dos env shouldRetry fuel).trace)[i]? = some c →
      g.initial ≤ c ∧ c ≤ g.max) ∧
    (∀ (i j : Nat) (c' : Int), i ≤ j →
      (ceilings (g.Dos env shouldRetry fuel).trace)[i]? = some g.max →
      (ceilings (g.Dos env shouldRetry fuel).trace)[j]? = some c' → c' = g.max) := by
  have key : ∀ (i : Nat) (c : Int),
      (ceilings (g.Dos env shouldRetry fuel).trace)[i]? = some c →
      c = min (g.initial * 2 ^ i) g.max := by
    intro i c hc
    rw [Dos_ceilings_ideal g env shouldRetry fuel h1 h2 h3 i c hc,
      idealCeiling_closed g h1 h2 i]
  have hmono : ∀ (i j : Nat) (c c' : Int), i ≤ j →
      (ceilings (g.Dos env shouldRetry fuel).trace)[i]? = some c →
      (ceilings (g.Dos env shouldRetry fuel).trace)[j]? = some c' → c ≤ c' := by
    intro i j c c' hij hc hc'
    rw [key i c hc, key j c' hc']
    exact closedCeiling_mono g h1 i j hij
  have hbound : ∀ (i : Nat) (c : Int),
      (ceilings (g.Dos env shouldRetry fuel).trace)[i]? = some c →
      g.initial ≤ c ∧ c ≤ g.max := by
    intro i c hc
    rw [key i c hc]
    refine ⟨le_min ?_ h2, min_le_right _ _⟩
    have : (1 : Int) ≤ 2 ^ i := one_le_pow₀ (by norm_num)
    nlinarith
  refine ⟨key, hmono, hbound, ?_⟩
  intro i j c' hij hc hc'
  exact le_antisymm (hbound j c' hc').2 (hmono i j g.max c' hij hc hc')

/-- Witness of `Dos_ceilings_closed_form`: with `max = 2^63 - 1` the ceilings reach `max`
at the second wait, where `2 * 2^62` is beyond the 64-bit range, and stay there. -/
theorem Dos_ceilings_closed_form_witness :
    (2 ^ 63 - 1 : Int) = min (2 ^ 62 * 2 ^ 1) (Gosyphus.mk (2 ^ 62) maxInt64).max ∧
    (2 ^ 63 - 1 : Int) = (Gosyphus.mk (2 ^ 62) maxInt64).max :=
  have key := Dos_ceilings_closed_form (Gosyphus.mk (2 ^ 62) maxInt64)
    (scripted 3 (fun _ => 7) none (fun n => 5 + n)) (fun _ => true) 3
    (by decide) (by decide) (by decide)
  ⟨key.1 1 (2 ^ 63 - 1) (by decide), key.2.2.2 1 2 (2 ^ 63 - 1) (by decide) (by decide) (by decide)⟩

/-! ## A retrier whose maximum is 1 -/

/-- C19: for a retrier with `1 ≤ initial ≤ max` and `max = 1`, every draw of every run of
`Dos` and of `Do` is made with the ceiling 1 and gives the wait 0; `New(initial, max)` is
that retrier, with both fields 1, for all `initial ≤ 1` and `max ≤ 1`, so that every wait of
its runs is 0. -/
theorem Dos_max_one_waits_zero {ε : Type} (g : Gosyphus) (env : Env ε)
    (shouldRetry : ε → Bool) (fuel : Nat) (h1 : 1 ≤ g.initial) (h2 : g.initial ≤ g.max)
    (hmax : g.max = 1) :
    (∀ p ∈ draws (g.Dos env shouldRetry fuel).trace, p = (1, some 0)) ∧
    (∀ p ∈ draws (g.Do env fuel).trace, p = (1, some 0)) ∧
    (∀ initial max : Int, initial ≤ 1 → max ≤ 1 →
      New initial max = Gosyphus.mk 1 1 ∧
      (∀ p ∈ draws ((New initial max).Dos env shouldRetry fuel).trace, p = (1, some 0)) ∧
      (∀ p ∈ draws ((New initial max).Do env fuel).trace, p = (1, some 0))) := by
  have key : ∀ (g' : Gosyphus) (sr : ε → Bool), 1 ≤ g'.initial → g'.initial ≤ g'.max →
      g'.max = 1 → ∀ p ∈ draws (g'.Dos env sr fuel).trace, p = (1, some 0) := by
    intro g' sr h1' h2' hmax' p hp
    obtain ⟨hlo, hhi, v, hv, h0, hlt⟩ := Dos_draws_bounds g' env sr fuel h1' h2' p hp
    rw [hmax'] at hhi
    have hd : p.1 = 1 := le_antisymm hhi hlo
    have hv0 : v = 0 := by omega
    rw [hv0] at hv
    exact Prod.ext hd hv
  refine ⟨key g shouldRetry h1 h2 hmax, key g (fun _ => true) h1 h2 hmax, ?_⟩
  intro initial max hi hm
  have hnew : New initial max = Gosyphus.mk 1 1 := by
    simp only [New]
    split_ifs <;> congr 1 <;> omega
  refine ⟨hnew, ?_, ?_⟩
  · rw [hnew]
    exact key (Gosyphus.mk 1 1) shouldRetry (le_refl 1) (le_refl 1) rfl
  · rw [hnew]
    exact key (Gosyphus.mk 1 1) (fun _ => true) (le_refl 1) (le_refl 1) rfl

/-- Witness of `Dos_max_one_waits_zero` on `TestBadConfig`, `New(0, -1)`: the two waits of
the run are 0. -/
theorem Dos_max_one_waits_zero_witness :
    New 0 (-1) = Gosyphus.mk 1 1 ∧
    draws ((New 0 (-1)).Do (scripted 2 (fun _ => 7) none (fun n => 5 + n)) 3).trace
      = [(1, some 0), (1, some 0)] ∧
    (∀ p ∈ draws ((New 0 (-1)).Do (scripted 2 (fun _ => 7) none (fun n => 5 + n)) 3).trace,
      p = (1, some 0)) :=
  have key := Dos_max_one_waits_zero (New 0 (-1))
    (scripted 2 (fun _ => 7) none (fun n => 5 + n)) (fun _ => true) 3
    (by decide) (by decide) (by decide)
  ⟨(key.2.2 0 (-1) (by decide) (by decide)).1, by decide, key.2.1⟩

/-! ## Success is the only way to nil -/

/-- A context that keeps the contract of `context.Context` has a non-nil `Err` once it has
fired. -/
theorem ErrOnceFired_of_contract {ε : Type} (env : Env ε) (hs : env.ErrStable)
    (hd : env.DoneHasErr) : env.ErrOnceFired := by
  have hstep : ∀ s k, env.ctxErr s ≠ none → env.ctxErr (s + k) ≠ none := by
    intro s k
    induction k with
    | zero => exact id
    | succ k ih =>
      intro h
      cases hc : env.ctxErr (s + k) with
      | none => exact absurd hc (ih h)
      | some e =>
        have := hs (s + k) e hc
        rw [Nat.add_assoc] at this
        rw [this]
        exact Option.some_ne_none e
  intro s t hst hfired
  obtain ⟨k, rfl⟩ : ∃ k, t = s + k := ⟨t - s, by omega⟩
  rcases hfired with h | h
  · exact hstep s k (hd s h)
  · exact hstep s k h

/-- In the loop a call of `f` that succeeds is the last interaction. -/
theorem retryLoop_success_last {ε : Type} (g : Gosyphus) (env : Env ε)
    (shouldRetry : ε → Bool) (fuel : Nat) (d : Int) (st : St)
    (h : none ∈ callResults (retryLoop g env shouldRetry fuel d st).trace) :
    ∃ pre, (retryLoop g env shouldRetry fuel d st).trace = pre ++ [Event.call none] ∧
      none ∉ callResults pre := by
  revert h
  refine retryLoop_induction g env shouldRetry
    (fun _ run => none ∈ callResults run.trace →
      ∃ pre, run.trace = pre ++ [Event.call none] ∧ none ∉ callResults pre)
    ?_ ?_ ?_ ?_ ?_ ?_ fuel d st
  · intro _ h
    simp [callResults] at h
  · intro _ t _ h
    simp [callResults] at h
  · intro _ _ _ _
    exact ⟨[Event.wait false], rfl, by simp [callResults]⟩
  · intro _ e _ _ _ h
    simp [callResults] at h
  · intro _ e _ v _ _ _ h
    simp [callResults] at h
  · intro _ e _ v w run _ _ _ ih h
    rw [Run.after, callResults_append] at h
    simp only [callResults, List.mem_append, List.mem_singleton] at h
    rcases h with h | h
    · cases h
    · obtain ⟨pre, hp, hnot⟩ := ih h
      refine ⟨_ ++ pre, by rw [Run.after, hp, List.append_assoc], ?_⟩
      rw [callResults_append]
      simp only [callResults, List.mem_append, List.mem_singleton, not_or]
      exact ⟨fun hne => Option.noConfusion hne, hnot⟩

/-- In a run of `Dos` a call of `f` that succeeds is the last interaction. -/
theorem Dos_success_last {ε : Type} (g : Gosyphus) (env : Env ε)
    (shouldRetry : ε → Bool) (fuel : Nat)
    (h : none ∈ callResults (g.Dos env shouldRetry fuel).trace) :
    ∃ pre, (g.Dos env shouldRetry fuel).trace = pre ++ [Event.call none] ∧
      none ∉ callResults pre := by
  revert h
  refine Dos_cases g env shouldRetry fuel
    (fun run => none ∈ callResults run.trace →
      ∃ pre, run.trace = pre ++ [Event.call none] ∧ none ∉ callResults pre)
    ?_ ?_ ?_ ?_ ?_
  · intro c _ h
    simp [callResults] at h
  · intro _ _ _
    exact ⟨[Event.ctxErr none], rfl, by simp [callResults]⟩
  · intro e _ _ _ h
    simp [callResults] at h
  · intro e v _ _ _ _ h
    simp [callResults] at h
  · intro e v w st _ _ _ _ h
    rw [Run.after, callResults_append] at h
    simp only [callResults, List.mem_append, List.mem_singleton] at h
    rcases h with h | h
    · cases h
    · obtain ⟨pre, hp, hnot⟩ :=
        retryLoop_success_last g env shouldRetry fuel g.initial st h
      refine ⟨_ ++ pre, by rw [Run.after, hp, List.append_assoc], ?_⟩
      rw [callResults_append]
      simp only [callResults, List.mem_append, List.mem_singleton, not_or]
      exact ⟨fun hne => Option.noConfusion hne, hnot⟩

/-- C13: for a context whose `Err` is non-nil once it has fired, a run of `Dos` that returns
`r` returns nil if and only if `f` was called and its last call returned nil; the trace of
a nil return ends with that successful call; and a run whose last call of `f` failed, or
that has made no call of `f`, does not return nil. -/
theorem Dos_nil_iff_success {ε : Type} (g : Gosyphus) (env : Env ε)
    (shouldRetry : ε → Bool) (fuel : Nat) (r : Option ε) (hctx : env.ErrOnceFired)
    (h : (g.Dos env shouldRetry fuel).outcome = Outcome.returned r) :
    (r = none ↔ (callResults (g.Dos env shouldRetry fuel).trace).getLast? = some none) ∧
    (r = none → ∃ pre, (g.Dos env shouldRetry fuel).trace = pre ++ [Event.call none]) ∧
    (∀ e, (callResults (g.Dos env shouldRetry fuel).trace).getLast? = some (some e) →
      r ≠ none) ∧
    (callResults (g.Dos env shouldRetry fuel).trace = [] → r ≠ none) := by
  have hiff : (r = none ↔
        (callResults (g.Dos env shouldRetry fuel).trace).getLast? = some none) ∧
      (r = none → ∃ pre, (g.Dos env shouldRetry fuel).trace = pre ++ [Event.call none]) := by
    rcases Dos_returned_endsBy g env shouldRetry fuel r h with
      ⟨hr, pre, hp⟩ | ⟨t, pre, hr, ht, hp⟩ | ⟨e, pre, hr, _, hp⟩
    · refine ⟨⟨fun _ => ?_, fun _ => hr⟩, fun _ => ⟨pre, hp⟩⟩
      rw [hp, callResults_append]
      simp [callResults]
    · have hne : r ≠ none := by
        rw [hr]
        rcases ht with ht | ⟨ht, h0⟩
        · exact hctx t t (le_refl t) (Or.inl ht)
        · rw [ht]
          exact hctx 0 1 (by omega) (Or.inr h0)
      refine ⟨⟨fun hn => absurd hn hne, fun hlast => ?_⟩, fun hn => absurd hn hne⟩
      have hmem : (none : Option ε) ∈ callResults (g.Dos env shouldRetry fuel).trace :=
        List.mem_of_mem_getLast? hlast
      obtain ⟨pre', hp', _⟩ := Dos_success_last g env shouldRetry fuel hmem
      rw [hp] at hp'
      have hl := congrArg List.getLast? hp'
      simp at hl
    · have hne : r ≠ none := by
        rw [hr]
        exact Option.some_ne_none e
      refine ⟨⟨fun hn => absurd hn hne, fun hlast => ?_⟩, fun hn => absurd hn hne⟩
      rw [hp, callResults_append] at hlast
      simp [callResults] at hlast
  refine ⟨hiff.1, hiff.2, ?_, ?_⟩
  · intro e he hn
    rw [hiff.1.mp hn] at he
    cases he
  · intro hnil hn
    have := hiff.1.mp hn
    rw [hnil] at this
    cases this

/-- Witness of `Dos_nil_iff_success`: with the deadline that expires during the third wait
and an `f` that always fails, the run returns the deadline error, and the last call of `f`
did not return nil. -/
theorem Dos_nil_iff_success_witness :
    envDeadline.ErrOnceFired ∧
    (defaultGosyphus.Dos envDeadline (fun _ => true) 9).outcome = Outcome.returned (some 1) ∧
    ((some 1 : Option Nat) = none ↔
      (callResults (defaultGosyphus.Dos envDeadline (fun _ => true) 9).trace).getLast?
        = some none) :=
  have hctx : envDeadline.ErrOnceFired := by
    intro s t hst hfired
    have hs : 7 ≤ s := by
      rcases hfired with h | h
      · simpa [envDeadline] using h
      · by_contra hlt
        exact h (by simp only [envDeadline]; rw [if_pos (by omega)])
    simp only [envDeadline]
    rw [if_neg (by omega)]
    exact Option.some_ne_none 1
  ⟨hctx, by decide,
   (Dos_nil_iff_success defaultGosyphus envDeadline (fun _ => true) 9 (some 1) hctx
      (by decide)).1⟩

/-! ## The instants of a trace -/

/-- The instants that `timed` gives to the interactions of the loop are those at which the
loop reads the context: a call of `ctx.Err()` stamped `t` returned `ctxErr t`, and a wait
stamped `t` that was cut short found `ctxDone t`. -/
theorem retryLoop_timed_sound {ε : Type} (g : Gosyphus) (env : Env ε)
    (shouldRetry : ε → Bool) :
    ∀ (fuel : Nat) (d : Int) (st : St),
      ∀ p ∈ timed st.now (retryLoop g env shouldRetry fuel d st).trace,
        (∀ r, p.2 = Event.ctxErr r → r = env.ctxErr p.1) ∧
        (p.2 = Event.wait true → env.ctxDone p.1 = true) := by
  intro fuel
  induction fuel with
  | zero =>
    intro d st p hp
    simp [retryLoop, timed] at hp
  | succ fuel ih =>
    intro d st p hp
    rw [retryLoop] at hp
    split at hp
    · next hc =>
      simp only [timed, List.mem_cons, List.mem_singleton, List.not_mem_nil, or_false] at hp
      rcases hp with hp | hp
      · rw [hp]
        exact ⟨fun r hr => (by cases hr), fun _ => hc.1⟩
      · rw [hp]
        exact ⟨fun r hr => (by cases hr; rfl), fun hw => by cases hw⟩
    · split at hp
      · simp only [timed, List.mem_cons, List.mem_singleton, List.not_mem_nil, or_false] at hp
        rcases hp with hp | hp <;> rw [hp] <;>
          exact ⟨fun r hr => (by cases hr), fun hw => by cases hw⟩
      · next err hf =>
        split at hp
        · simp only [timed, List.mem_cons, List.mem_singleton, List.not_mem_nil,
            or_false] at hp
          rcases hp with hp | hp | hp <;> rw [hp] <;>
            exact ⟨fun r hr => (by cases hr), fun hw => by cases hw⟩
        · dsimp only at hp
          split at hp
          · simp only [timed, List.mem_cons, List.mem_singleton, List.not_mem_nil,
              or_false] at hp
            rcases hp with hp | hp | hp | hp <;> rw [hp] <;>
              exact ⟨fun r hr => (by cases hr), fun hw => by cases hw⟩
          · simp only [Run.after, List.cons_append, List.nil_append, timed,
              List.mem_cons] at hp
            rcases hp with hp | hp | hp | hp | hp
            · rw [hp]
              exact ⟨fun r hr => (by cases hr), fun hw => by cases hw⟩
            · rw [hp]
              exact ⟨fun r hr => (by cases hr), fun hw => by cases hw⟩
            · rw [hp]
              exact ⟨fun r hr => (by cases hr), fun hw => by cases hw⟩
            · rw [hp]
              exact ⟨fun r hr => (by cases hr), fun hw => by cases hw⟩
            · exact ih _ (St.mk (st.now + 2) (st.calls + 1) (st.draws + 1) (st.waits + 1))
                p hp

/-- The instants that `timed` gives to the interactions of a run of `Dos` are those at which
the run reads the context. -/
theorem Dos_timed_sound {ε : Type} (g : Gosyphus) (env : Env ε) (shouldRetry : ε → Bool)
    (fuel : Nat) :
    ∀ p ∈ timed 0 (g.Dos env shouldRetry fuel).trace,
      (∀ r, p.2 = Event.ctxErr r → r = env.ctxErr p.1) ∧
      (p.2 = Event.wait true → env.ctxDone p.1 = true) := by
  intro p hp
  rw [Gosyphus.Dos] at hp
  split at hp
  · next c hc =>
    simp only [timed, List.mem_cons, List.mem_singleton, List.not_mem_nil, or_false] at hp
    rcases hp with hp | hp
    · rw [hp]
      exact ⟨fun r hr => (by cases hr; exact hc.symm), fun hw => by cases hw⟩
    · rw [hp]
      exact ⟨fun r hr => (by cases hr; rfl), fun hw => by cases hw⟩
  · next hc =>
    split at hp
    · simp only [timed, List.mem_cons, List.mem_singleton, List.not_mem_nil, or_false] at hp
      rcases hp with hp | hp
      · rw [hp]
        exact ⟨fun r hr => (by cases hr; exact hc.symm), fun hw => by cases hw⟩
      · rw [hp]
        exact ⟨fun r hr => (by cases hr), fun hw => by cases hw⟩
    · next err hf =>
      split at hp
      · simp only [timed, List.mem_cons, List.mem_singleton, List.not_mem_nil,
          or_false] at hp
        rcases hp with hp | hp | hp
        · rw [hp]
          exact ⟨fun r hr => (by cases hr; exact hc.symm), fun hw => by cases hw⟩
        · rw [hp]
          exact ⟨fun r hr => (by cases hr), fun hw => by cases hw⟩
        · rw [hp]
          exact ⟨fun r hr => (by cases hr), fun hw => by cases hw⟩
      · dsimp only at hp
        split at hp
        · simp only [timed, List.mem_cons, List.mem_singleton, List.not_mem_nil,
            or_false] at hp
          rcases hp with hp | hp | hp | hp
          · rw [hp]
            exact ⟨fun r hr => (by cases hr; exact hc.symm), fun hw => by cases hw⟩
          · rw [hp]
            exact ⟨fun r hr => (by cases hr), fun hw => by cases hw⟩
          · rw [hp]
            exact ⟨fun r hr => (by cases hr), fun hw => by cases hw⟩
          · rw [hp]
            exact ⟨fun r hr => (by cases hr), fun hw => by cases hw⟩
        · simp only [Run.after, List.cons_append, List.nil_append, timed,
            List.mem_cons] at hp
          rcases hp with hp | hp | hp | hp | hp
          · rw [hp]
            exact ⟨fun r hr => (by cases hr; exact hc.symm), fun hw => by cases hw⟩
          · rw [hp]
            exact ⟨fun r hr => (by cases hr), fun hw => by cases hw⟩
          · rw [hp]
            exact ⟨fun r hr => (by cases hr), fun hw => by cases hw⟩
          · rw [hp]
            exact ⟨fun r hr => (by cases hr), fun hw => by cases hw⟩
          · exact retryLoop_timed_sound g env shouldRetry fuel g.initial (St.mk 2 1 1 0) p hp

/-! ## The calls of `shouldRetry` -/

theorem length_filterMap_failed {ε : Type} (shouldRetry : ε → Bool) (l : List (Option ε)) :
    (l.filterMap (fun r => r.map (fun e => (e, shouldRetry e)))).length
      = l.countP (fun r => r.isSome) := by
  induction l with
  | nil => rfl
  | cons r l ih => cases r <;> simp [List.filterMap_cons, List.countP_cons, ih]

/-- In the loop `shouldRetry` is called on the errors that `f` returned, in order, and
returns the value of the classifier. -/
theorem retryLoop_classified {ε : Type} (g : Gosyphus) (env : Env ε)
    (shouldRetry : ε → Bool) (fuel : Nat) (d : Int) (st : St) :
    classified (retryLoop g env shouldRetry fuel d st).trace
      = (callResults (retryLoop g env shouldRetry fuel d st).trace).filterMap
          (fun r => r.map (fun e => (e, shouldRetry e))) := by
  refine retryLoop_induction g env shouldRetry
    (fun _ run => classified run.trace
      = (callResults run.trace).filterMap (fun r => r.map (fun e => (e, shouldRetry e))))
    ?_ ?_ ?_ ?_ ?_ ?_ fuel d st
  · intro _
    rfl
  · intro _ t _
    rfl
  · intro _ _ _
    rfl
  · intro _ e _ _ hs
    simp [classified, callResults, hs]
  · intro _ e _ v _ hs _
    simp [classified, callResults, hs]
  · intro _ e _ v w run _ hs _ ih
    rw [Run.after, classified_append, callResults_append, List.filterMap_append, ih]
    simp [classified, callResults, hs]

/-- In the loop the interactions come in the order `InOrder`, and the first one is a wait. -/
theorem retryLoop_inOrder {ε : Type} (g : Gosyphus) (env : Env ε)
    (shouldRetry : ε → Bool) (fuel : Nat) (d : Int) (st : St) :
    List.Chain' (InOrder shouldRetry) (retryLoop g env shouldRetry fuel d st).trace ∧
    ∀ ev, (retryLoop g env shouldRetry fuel d st).trace.head? = some ev →
      ∃ c, ev = Event.wait c := by
  refine retryLoop_induction g env shouldRetry
    (fun _ run => List.Chain' (InOrder shouldRetry) run.trace ∧
      ∀ ev, run.trace.head? = some ev → ∃ c, ev = Event.wait c)
    ?_ ?_ ?_ ?_ ?_ ?_ fuel d st
  · intro _
    exact ⟨List.chain'_nil, fun ev h => by simp at h⟩
  · intro _ t _
    refine ⟨?_, fun ev h => ⟨true, by simpa using h.symm⟩⟩
    simp [InOrder]
  · intro _ _ _
    refine ⟨?_, fun ev h => ⟨false, by simpa using h.symm⟩⟩
    simp [InOrder]
  · intro _ e _ _ hs
    refine ⟨?_, fun ev h => ⟨false, by simpa using h.symm⟩⟩
    simp [InOrder, hs]
  · intro _ e _ v _ hs _
    refine ⟨?_, fun ev h => ⟨false, by simpa using h.symm⟩⟩
    simp [InOrder, hs]
  · intro _ e _ v w run _ hs _ ih
    refine ⟨?_, fun ev h => ⟨false, by simpa [Run.after] using h.symm⟩⟩
    rw [Run.after]
    simp only [List.cons_append, List.nil_append]
    rw [List.chain'_cons, List.chain'_cons, List.chain'_cons, List.chain'_cons']
    refine ⟨by simp [InOrder], by simp [InOrder, hs], by simp [InOrder], ?_, ih.1⟩
    intro y hy
    obtain ⟨c, hc⟩ := ih.2 y hy
    rw [hc]
    simp [InOrder]

/-- C16, counterexample: `shouldRetry` is called after the context has fired.  The deadline
expires (error 1) while the first call of `f` is running: `Done` is open at instant 1, when
the call begins, and closed at instant 2, when it returns with the error 0; `shouldRetry` is
then called on that error, at instant 2. -/
theorem shouldRetry_called_after_ctx_fired :
    envExpiresInCall.ctxDone 1 = false ∧ envExpiresInCall.ctxDone 2 = true ∧
    envExpiresInCall.ctxErr 2 = some 1 ∧
    timed 0 (defaultGosyphus.Do envExpiresInCall 3).trace
      = [(0, Event.ctxErr none), (2, Event.call (some 0)), (2, Event.classify 0 true),
          (2, Event.jitter 1000000000 (some 5)), (3, Event.wait true),
          (3, Event.ctxErr (some 1))] ∧
    classified (defaultGosyphus.Do envExpiresInCall 3).trace = [(0, true)] := by
  decide

theorem append_eq_append_cons {α : Type} (l₁ l₂ pre post : List α) (ev : α)
    (h : l₁ ++ l₂ = pre ++ ev :: post) :
    (∃ mid, l₁ = pre ++ ev :: mid ∧ post = mid ++ l₂) ∨
    (∃ pre', pre = l₁ ++ pre' ∧ l₂ = pre' ++ ev :: post) := by
  rcases List.append_eq_append_iff.mp h with ⟨a', hpre, hl2⟩ | ⟨c', hl1, hpost⟩
  · exact Or.inr ⟨a', hpre, hl2⟩
  · cases c' with
    | nil =>
      refine Or.inr ⟨[], ?_, ?_⟩
      · rw [hl1, List.append_nil, List.append_nil]
      · rw [List.nil_append] at hpost
        rw [List.nil_append, hpost]
    | cons x c'' =>
      rw [List.cons_append] at hpost
      obtain ⟨hx, hp⟩ := List.cons.inj hpost
      exact Or.inl ⟨c'', by rw [hl1, hx], hp⟩

theorem pair_eq_append_cons {α : Type} (a b ev : α) (pre post : List α)
    (h : [a, b] = pre ++ ev :: post) :
    (ev = a ∧ post = [b]) ∨ (ev = b ∧ post = []) := by
  rcases pre with _ | ⟨p, _ | ⟨q, pre⟩⟩
  · simp only [List.nil_append, List.cons.injEq] at h
    exact Or.inl ⟨h.1.symm, h.2.symm⟩
  · simp only [List.cons_append, List.nil_append, List.cons.injEq] at h
    exact Or.inr ⟨h.2.1.symm, h.2.2.symm⟩
  · simp at h

theorem mem_of_eq_append_cons {α : Type} (l pre post : List α) (ev : α)
    (h : l = pre ++ ev :: post) : ev ∈ l := by
  rw [h]
  exact List.mem_append_right _ (List.mem_cons_self _ _)

/-- None of the interactions of an iteration that goes on is an observation that the context
has fired. -/
theorem not_observesFired {ε : Type} (ev : Event ε) (hobs : ObservesFired ev) :
    ev ≠ Event.ctxErr none ∧ ev ≠ Event.wait false ∧ (∀ r, ev ≠ Event.call r) ∧
    (∀ e b, ev ≠ Event.classify e b) ∧ (∀ d w, ev ≠ Event.jitter d w) := by
  rcases hobs with h | ⟨c, h⟩ <;> subst h <;>
    exact ⟨fun h => (by cases h), fun h => (by cases h), fun _ h => (by cases h),
      fun _ _ h => (by cases h), fun _ _ h => (by cases h)⟩

/-- In the loop, once the run has observed that the context has fired, only calls of
`ctx.Err()` follow. -/
theorem retryLoop_after_observed {ε : Type} (g : Gosyphus) (env : Env ε)
    (shouldRetry : ε → Bool) (fuel : Nat) (d : Int) (st : St) :
    ∀ pre ev post, (retryLoop g env shouldRetry fuel d st).trace = pre ++ ev :: post →
      ObservesFired ev → ∀ x ∈ post, ∃ r, x = Event.ctxErr r := by
  refine retryLoop_induction g env shouldRetry
    (fun _ run => ∀ pre ev post, run.trace = pre ++ ev :: post →
      ObservesFired ev → ∀ x ∈ post, ∃ r, x = Event.ctxErr r)
    ?_ ?_ ?_ ?_ ?_ ?_ fuel d st
  · intro _ pre ev post h
    simp at h
  · intro _ t _ pre ev post h _ x hx
    rcases pair_eq_append_cons _ _ ev pre post h with ⟨_, hp⟩ | ⟨_, hp⟩
    · rw [hp, List.mem_singleton] at hx
      exact ⟨_, hx⟩
    · rw [hp] at hx
      exact absurd hx (List.not_mem_nil x)
  · intro _ _ _ pre ev post h hobs
    have hmem := mem_of_eq_append_cons _ pre post ev h
    have hno := not_observesFired ev hobs
    simp only [List.mem_cons, List.mem_singleton, List.not_mem_nil, or_false] at hmem
    rcases hmem with hm | hm
    · exact absurd hm hno.2.1
    · exact absurd hm (hno.2.2.1 _)
  · intro _ e _ _ _ pre ev post h hobs
    have hmem := mem_of_eq_append_cons _ pre post ev h
    have hno := not_observesFired ev hobs
    simp only [List.mem_cons, List.mem_singleton, List.not_mem_nil, or_false] at hmem
    rcases hmem with hm | hm | hm
    · exact absurd hm hno.2.1
    · exact absurd hm (hno.2.2.1 _)
    · exact absurd hm (hno.2.2.2.1 _ _)
  · intro _ e _ v _ _ _ pre ev post h hobs
    have hmem := mem_of_eq_append_cons _ pre post ev h
    have hno := not_observesFired ev hobs
    simp only [List.mem_cons, List.mem_singleton, List.not_mem_nil, or_false] at hmem
    rcases hmem with hm | hm | hm | hm
    · exact absurd hm hno.2.1
    · exact absurd hm (hno.2.2.1 _)
    · exact absurd hm (hno.2.2.2.1 _ _)
    · exact absurd hm (hno.2.2.2.2 _ _)
  · intro _ e _ v w run _ _ _ ih pre ev post h hobs
    rw [Run.after] at h
    rcases append_eq_append_cons _ _ pre post ev h with ⟨mid, hl, _⟩ | ⟨pre', _, hl⟩
    · have hmem := mem_of_eq_append_cons _ pre mid ev hl
      have hno := not_observesFired ev hobs
      simp only [List.mem_cons, List.mem_singleton, List.not_mem_nil, or_false] at hmem
      rcases hmem with hm | hm | hm | hm
      · exact absurd hm hno.2.1
      · exact absurd hm (hno.2.2.1 _)
      · exact absurd hm (hno.2.2.2.1 _ _)
      · exact absurd hm (hno.2.2.2.2 _ _)
    · exact ih pre' ev post hl hobs

/-- In a run of `Dos`, once the run has observed that the context has fired, only calls of
`ctx.Err()` follow: no call of `f`, no call of `shouldRetry`, no draw and no wait. -/
theorem Dos_after_observed {ε : Type} (g : Gosyphus) (env : Env ε)
    (shouldRetry : ε → Bool) (fuel : Nat) :
    ∀ pre ev post, (g.Dos env shouldRetry fuel).trace = pre ++ ev :: post →
      ObservesFired ev → ∀ x ∈ post, ∃ r, x = Event.ctxErr r := by
  refine Dos_cases g env shouldRetry fuel
    (fun run => ∀ pre ev post, run.trace = pre ++ ev :: post →
      ObservesFired ev → ∀ x ∈ post, ∃ r, x = Event.ctxErr r)
    ?_ ?_ ?_ ?_ ?_
  · intro c _ pre ev post h _ x hx
    rcases pair_eq_append_cons _ _ ev pre post h with ⟨_, hp⟩ | ⟨_, hp⟩
    · rw [hp, List.mem_singleton] at hx
      exact ⟨_, hx⟩
    · rw [hp] at hx
      exact absurd hx (List.not_mem_nil x)
  · intro _ _ pre ev post h hobs
    have hmem := mem_of_eq_append_cons _ pre post ev h
    have hno := not_observesFired ev hobs
    simp only [List.mem_cons, List.mem_singleton, List.not_mem_nil, or_false] at hmem
    rcases hmem with hm | hm
    · exact absurd hm hno.1
    · exact absurd hm (hno.2.2.1 _)
  · intro e _ _ _ pre ev post h hobs
    have hmem := mem_of_eq_append_cons _ pre post ev h
    have hno := not_observesFired ev hobs
    simp only [List.mem_cons, List.mem_singleton, List.not_mem_nil, or_false] at hmem
    rcases hmem with hm | hm | hm
    · exact absurd hm hno.1
    · exact absurd hm (hno.2.2.1 _)
    · exact absurd hm (hno.2.2.2.1 _ _)
  · intro e v _ _ _ _ pre ev post h hobs
    have hmem := mem_of_eq_append_cons _ pre post ev h
    have hno := not_observesFired ev hobs
    simp only [List.mem_cons, List.mem_singleton, List.not_mem_nil, or_false] at hmem
    rcases hmem with hm | hm | hm | hm
    · exact absurd hm hno.1
    · exact absurd hm (hno.2.2.1 _)
    · exact absurd hm (hno.2.2.2.1 _ _)
    · exact absurd hm (hno.2.2.2.2 _ _)
  · intro e v w st _ _ _ _ pre ev post h hobs
    rw [Run.after] at h
    rcases append_eq_append_cons _ _ pre post ev h with ⟨mid, hl, _⟩ | ⟨pre', _, hl⟩
    · have hmem := mem_of_eq_append_cons _ pre mid ev hl
      have hno := not_observesFired ev hobs
      simp only [List.mem_cons, List.mem_singleton, List.not_mem_nil, or_false] at hmem
      rcases hmem with hm | hm | hm | hm
      · exact absurd hm hno.1
      · exact absurd hm (hno.2.2.1 _)
      · exact absurd hm (hno.2.2.2.1 _ _)
      · exact absurd hm (hno.2.2.2.2 _ _)
    · exact retryLoop_after_observed g env shouldRetry fuel g.initial st pre' ev post hl hobs

/-- The loop does not stop on a call of `f` that failed. -/
theorem retryLoop_last_not_failed {ε : Type} (g : Gosyphus) (env : Env ε)
    (shouldRetry : ε → Bool) (fuel : Nat) (d : Int) (st : St) :
    ∀ e, (retryLoop g env shouldRetry fuel d st).trace.getLast? ≠ some (Event.call (some e)) := by
  refine retryLoop_induction g env shouldRetry
    (fun _ run => ∀ e, run.trace.getLast? ≠ some (Event.call (some e)))
    ?_ ?_ ?_ ?_ ?_ ?_ fuel d st
  · intro _ e h
    simp at h
  · intro _ t _ e h
    simp at h
  · intro _ _ _ e h
    simp at h
  · intro _ e' _ _ _ e h
    simp at h
  · intro _ e' _ v _ _ _ e h
    simp at h
  · intro _ e' _ v w run _ _ _ ih e h
    rw [Run.after, List.getLast?_append] at h
    cases hl : run.trace.getLast? with
    | none =>
      rw [hl] at h
      simp at h
    | some y =>
      rw [hl] at h
      simp only [Option.or_some] at h
      exact ih e (by rw [hl, h])

/-- A run of `Dos` does not stop on a call of `f` that failed. -/
theorem Dos_last_not_failed {ε : Type} (g : Gosyphus) (env : Env ε)
    (shouldRetry : ε → Bool) (fuel : Nat) :
    ∀ e, (g.Dos env shouldRetry fuel).trace.getLast? ≠ some (Event.call (some e)) := by
  refine Dos_cases g env shouldRetry fuel
    (fun run => ∀ e, run.trace.getLast? ≠ some (Event.call (some e)))
    ?_ ?_ ?_ ?_ ?_
  · intro c _ e h
    simp at h
  · intro _ _ e h
    simp at h
  · intro e' _ _ _ e h
    simp at h
  · intro e' v _ _ _ _ e h
    simp at h
  · intro e' v w st _ _ _ _ e h
    rw [Run.after, List.getLast?_append] at h
    cases hl : (retryLoop g env shouldRetry fuel g.initial st).trace.getLast? with
    | none =>
      rw [hl] at h
      simp at h
    | some y =>
      rw [hl] at h
      simp only [Option.or_some] at h
      exact retryLoop_last_not_failed g env shouldRetry fuel g.initial st e (by rw [hl, h])

/-- C16, amended: in every run of `Dos` the calls of `shouldRetry` are, in order, the calls
on the errors that the calls of `f` returned, each returning the value of the classifier, so
that there are as many as failed calls of `f`; a failed call of `f` is directly followed by
the call of `shouldRetry` on its error, and the run does not stop on a failed call; a call
of `shouldRetry` directly follows the call of `f` that returned its argument; nothing
follows a call of `f` that succeeded; the run begins with `ctx.Err()`, not with
`shouldRetry`; and once the run has observed that the context has fired, by a wait that
`ctx.Done()` cut short or by a non-nil `ctx.Err()`, only calls of `ctx.Err()` follow, so
that `shouldRetry` is not called any more. -/
theorem Dos_shouldRetry_calls {ε : Type} (g : Gosyphus) (env : Env ε)
    (shouldRetry : ε → Bool) (fuel : Nat) :
    classified (g.Dos env shouldRetry fuel).trace
      = (callResults (g.Dos env shouldRetry fuel).trace).filterMap
          (fun r => r.map (fun e => (e, shouldRetry e))) ∧
    (classified (g.Dos env shouldRetry fuel).trace).length
      = (callResults (g.Dos env shouldRetry fuel).trace).countP (fun r => r.isSome) ∧
    List.Chain' (InOrder shouldRetry) (g.Dos env shouldRetry fuel).trace ∧
    (∀ ev, (g.Dos env shouldRetry fuel).trace.head? = some ev → ∃ r, ev = Event.ctxErr r) ∧
    (∀ e, (g.Dos env shouldRetry fuel).trace.getLast? ≠ some (Event.call (some e))) ∧
    (∀ pre ev post, (g.Dos env shouldRetry fuel).trace = pre ++ ev :: post →
      ObservesFired ev →
      (∀ x ∈ post, ∃ r, x = Event.ctxErr r) ∧ classified post = [] ∧
        callResults post = []) := by
  have heq : classified (g.Dos env shouldRetry fuel).trace
      = (callResults (g.Dos env shouldRetry fuel).trace).filterMap
          (fun r => r.map (fun e => (e, shouldRetry e))) := by
    refine Dos_cases g env shouldRetry fuel
      (fun run => classified run.trace
        = (callResults run.trace).filterMap (fun r => r.map (fun e => (e, shouldRetry e))))
      ?_ ?_ ?_ ?_ ?_
    · intro c _
      rfl
    · intro _ _
      rfl
    · intro e _ _ hs
      simp [classified, callResults, hs]
    · intro e v _ _ hs _
      simp [classified, callResults, hs]
    · intro e v w st _ _ hs _
      rw [Run.after, classified_append, callResults_append, List.filterMap_append,
        retryLoop_classified g env shouldRetry fuel g.initial st]
      simp [classified, callResults, hs]
  have hchain : List.Chain' (InOrder shouldRetry) (g.Dos env shouldRetry fuel).trace ∧
      (∀ ev, (g.Dos env shouldRetry fuel).trace.head? = some ev →
        ∃ r, ev = Event.ctxErr r) := by
    refine Dos_cases g env shouldRetry fuel
      (fun run => List.Chain' (InOrder shouldRetry) run.trace ∧
        (∀ ev, run.trace.head? = some ev → ∃ r, ev = Event.ctxErr r))
      ?_ ?_ ?_ ?_ ?_
    · intro c _
      refine ⟨?_, fun ev h => ⟨some c, by simpa using h.symm⟩⟩
      simp [InOrder]
    · intro _ _
      refine ⟨?_, fun ev h => ⟨none, by simpa using h.symm⟩⟩
      simp [InOrder]
    · intro e _ _ hs
      refine ⟨?_, fun ev h => ⟨none, by simpa using h.symm⟩⟩
      simp [InOrder, hs]
    · intro e v _ _ hs _
      refine ⟨?_, fun ev h => ⟨none, by simpa using h.symm⟩⟩
      simp [InOrder, hs]
    · intro e v w st _ _ hs _
      have ih := retryLoop_inOrder g env shouldRetry fuel g.initial st
      refine ⟨?_, fun ev h => ⟨none, by simpa [Run.after] using h.symm⟩⟩
      rw [Run.after]
      simp only [List.cons_append, List.nil_append]
      rw [List.chain'_cons, List.chain'_cons, List.chain'_cons, List.chain'_cons']
      refine ⟨by simp [InOrder], by simp [InOrder, hs], by simp [InOrder], ?_, ih.1⟩
      intro y hy
      obtain ⟨c, hc⟩ := ih.2 y hy
      rw [hc]
      simp [InOrder]
  have hafter : ∀ (post : List (Event ε)), (∀ x ∈ post, ∃ r, x = Event.ctxErr r) →
      classified post = [] ∧ callResults post = [] := by
    intro post
    induction post with
    | nil => exact fun _ => ⟨rfl, rfl⟩
    | cons x post ih =>
      intro hall
      obtain ⟨r, hr⟩ := hall x (List.mem_cons_self _ _)
      have hrest := ih (fun y hy => hall y (List.mem_cons_of_mem _ hy))
      rw [hr]
      exact ⟨by simp only [classified]; exact hrest.1,
        by simp only [callResults]; exact hrest.2⟩
  refine ⟨heq, ?_, hchain.1, hchain.2, Dos_last_not_failed g env shouldRetry fuel, ?_⟩
  · rw [heq]
    exact length_filterMap_failed shouldRetry _
  · intro pre ev post h hobs
    have hctx := Dos_after_observed g env shouldRetry fuel pre ev post h hobs
    exact ⟨hctx, hafter post hctx⟩

/-! ## When the expiry of the context is observed -/

/-- The loop, when `f` fails retryably `j` more times, the timer ends the `j` waits before
these calls, and the next wait finds `Done` closed with the timer not taken: the loop returns
the value `ctx.Err()` has at the instant that wait is resolved. -/
theorem retryLoop_expiry {ε : Type} (g : Gosyphus) (env : Env ε) (shouldRetry : ε → Bool)
    (hmax : 1 ≤ g.max) :
    ∀ (j fuel : Nat) (d : Int) (st : St), j < fuel →
      (∀ n, n < j → ∃ e, env.f (st.calls + n) = some e ∧ shouldRetry e = true) →
      (∀ n, n < j → ¬(env.ctxDone (st.now + 2 * n + 1) = true ∧
        env.timerFirst (st.waits + n) = false)) →
      env.ctxDone (st.now + 2 * j + 1) = true → env.timerFirst (st.waits + j) = false →
      (retryLoop g env shouldRetry fuel d st).outcome
        = Outcome.returned (env.ctxErr (st.now + 2 * j + 1)) ∧
      (callResults (retryLoop g env shouldRetry fuel d st).trace).length = j ∧
      Event.wait true ∈ (retryLoop g env shouldRetry fuel d st).trace := by
  intro j
  induction j with
  | zero =>
    intro fuel d st hfuel _ _ hdone htf
    obtain ⟨fuel, rfl⟩ : ∃ m, fuel = m + 1 := ⟨fuel - 1, by omega⟩
    rw [retryLoop, if_pos ⟨hdone, htf⟩]
    exact ⟨rfl, rfl, List.mem_cons_self _ _⟩
  | succ j ih =>
    intro fuel d st hfuel hfail htimer hdone htf
    obtain ⟨fuel, rfl⟩ : ∃ m, fuel = m + 1 := ⟨fuel - 1, by omega⟩
    obtain ⟨e, hfe, hsr⟩ := hfail 0 (by omega)
    have hfe : env.f st.calls = some e := hfe
    have hnc : ¬(env.ctxDone (st.now + 1) = true ∧ env.timerFirst st.waits = false) :=
      htimer 0 (by omega)
    obtain ⟨w, hw, -, -⟩ :=
      jitter_of_pos _ (env.rand st.draws) (nextCeiling_bounds g d hmax).1
    have e1 : ∀ n, st.now + 2 + 2 * n + 1 = st.now + 2 * (n + 1) + 1 := fun n => by omega
    have e2 : ∀ n, st.calls + 1 + n = st.calls + (n + 1) := fun n => by omega
    have e3 : ∀ n, st.waits + 1 + n = st.waits + (n + 1) := fun n => by omega
    have hrec := ih fuel
      (if wrapInt64 (d * 2) > g.max ∨ wrapInt64 (d * 2) ≤ 0 then g.max else wrapInt64 (d * 2))
      (St.mk (st.now + 2) (st.calls + 1) (st.draws + 1) (st.waits + 1)) (by omega)
      (fun n hn => by
        show ∃ e, env.f (st.calls + 1 + n) = some e ∧ shouldRetry e = true
        rw [e2]
        exact hfail (n + 1) (by omega))
      (fun n hn => by
        show ¬(env.ctxDone (st.now + 2 + 2 * n + 1) = true ∧
          env.timerFirst (st.waits + 1 + n) = false)
        rw [e1, e3]
        exact htimer (n + 1) (by omega))
      (by
        show env.ctxDone (st.now + 2 + 2 * j + 1) = true
        rw [e1]
        exact hdone)
      (by
        show env.timerFirst (st.waits + 1 + j) = false
        rw [e3]
        exact htf)
    have hrec' : (retryLoop g env shouldRetry fuel
          (if wrapInt64 (d * 2) > g.max ∨ wrapInt64 (d * 2) ≤ 0 then g.max
            else wrapInt64 (d * 2))
          (St.mk (st.now + 2) (st.calls + 1) (st.draws + 1) (st.waits + 1))).outcome
          = Outcome.returned (env.ctxErr (st.now + 2 * (j + 1) + 1)) ∧
        (callResults (retryLoop g env shouldRetry fuel
          (if wrapInt64 (d * 2) > g.max ∨ wrapInt64 (d * 2) ≤ 0 then g.max
            else wrapInt64 (d * 2))
          (St.mk (st.now + 2) (st.calls + 1) (st.draws + 1) (st.waits + 1))).trace).length
          = j ∧
        Event.wait true ∈ (retryLoop g env shouldRetry fuel
          (if wrapInt64 (d * 2) > g.max ∨ wrapInt64 (d * 2) ≤ 0 then g.max
            else wrapInt64 (d * 2))
          (St.mk (st.now + 2) (st.calls + 1) (st.draws + 1) (st.waits + 1))).trace := by
      rw [← e1]
      exact hrec
    rw [retryLoop, if_neg hnc]
    simp only [hfe, hsr, Bool.true_eq_false, if_false, hw, Run.after, callResults_append]
    refine ⟨hrec'.1, ?_, List.mem_append_right _ hrec'.2.2⟩
    rw [List.length_append, hrec'.2.1]
    simp only [callResults, List.length_cons, List.length_nil]
    omega

/-- A run of `Dos` in which the first `k ≥ 1` calls of `f` fail retryably, the first `k - 1`
waits are ended by the timer, and the `k`-th wait finds `Done` closed with the timer not
taken: the run returns the value `ctx.Err()` has at the instant `2 * k + 1` at which that
wait is resolved, after exactly `k` calls of `f`. -/
theorem Dos_expiry_at_wait {ε : Type} (g : Gosyphus) (env : Env ε) (shouldRetry : ε → Bool)
    (k fuel : Nat) (h1 : 1 ≤ g.initial) (h2 : g.initial ≤ g.max) (hk : 1 ≤ k)
    (hfuel : k ≤ fuel) (h0 : env.ctxErr 0 = none)
    (hfail : ∀ n, n < k → ∃ e, env.f n = some e ∧ shouldRetry e = true)
    (htimer : ∀ n, n + 1 < k →
      ¬(env.ctxDone (2 * n + 3) = true ∧ env.timerFirst n = false))
    (hdone : env.ctxDone (2 * k + 1) = true) (htf : env.timerFirst (k - 1) = false) :
    (g.Dos env shouldRetry fuel).outcome = Outcome.returned (env.ctxErr (2 * k + 1)) ∧
    (callResults (g.Dos env shouldRetry fuel).trace).length = k ∧
    Event.wait true ∈ (g.Dos env shouldRetry fuel).trace := by
  obtain ⟨j, rfl⟩ : ∃ j, k = j + 1 := ⟨k - 1, by omega⟩
  obtain ⟨e, hfe, hsr⟩ := hfail 0 (by omega)
  obtain ⟨w, hw, -, -⟩ := jitter_of_pos g.initial (env.rand 0) h1
  have e1 : ∀ n, 2 + 2 * n + 1 = 2 * n + 3 := fun n => by omega
  have e2 : ∀ n, 1 + n = n + 1 := fun n => by omega
  have hrec := retryLoop_expiry g env shouldRetry (le_trans h1 h2) j fuel g.initial
    (St.mk 2 1 1 0) (by omega)
    (fun n hn => by
      show ∃ e, env.f (1 + n) = some e ∧ shouldRetry e = true
      rw [e2]
      exact hfail (n + 1) (by omega))
    (fun n hn => by
      show ¬(env.ctxDone (2 + 2 * n + 1) = true ∧ env.timerFirst (0 + n) = false)
      rw [e1, Nat.zero_add]
      exact htimer n (by omega))
    (by
      show env.ctxDone (2 + 2 * j + 1) = true
      rw [e1]
      exact hdone)
    (by
      show env.timerFirst (0 + j) = false
      rw [Nat.zero_add]
      exact htf)
  have hrec' : (retryLoop g env shouldRetry fuel g.initial (St.mk 2 1 1 0)).outcome
        = Outcome.returned (env.ctxErr (2 * (j + 1) + 1)) ∧
      (callResults (retryLoop g env shouldRetry fuel g.initial (St.mk 2 1 1 0)).trace).length
        = j ∧
      Event.wait true ∈ (retryLoop g env shouldRetry fuel g.initial (St.mk 2 1 1 0)).trace := by
    have e3 : 2 * (j + 1) + 1 = 2 + 2 * j + 1 := by omega
    rw [e3]
    exact hrec
  rw [Gosyphus.Dos]
  simp only [h0, hfe, hsr, Bool.true_eq_false, if_false, hw, Run.after, callResults_append]
  refine ⟨hrec'.1, ?_, List.mem_append_right _ hrec'.2.2⟩
  rw [List.length_append, hrec'.2.1]
  simp only [callResults, List.length_cons, List.length_nil]
  omega

/-- In a run of `Dos` a wait cut short by `ctx.Done()` makes the run return the value that
`ctx.Err()` has at an instant at which `Done` is closed. -/
theorem Dos_cancelled_returns {ε : Type} (g : Gosyphus) (env : Env ε)
    (shouldRetry : ε → Bool) (fuel : Nat)
    (h : Event.wait true ∈ (g.Dos env shouldRetry fuel).trace) :
    ∃ t, env.ctxDone t = true ∧
      (g.Dos env shouldRetry fuel).outcome = Outcome.returned (env.ctxErr t) := by
  revert h
  refine Dos_cases g env shouldRetry fuel
    (fun run => Event.wait true ∈ run.trace →
      ∃ t, env.ctxDone t = true ∧ run.outcome = Outcome.returned (env.ctxErr t))
    ?_ ?_ ?_ ?_ ?_
  · intro c _ h
    simp at h
  · intro _ _ h
    simp at h
  · intro e _ _ _ h
    simp at h
  · intro e v _ _ _ _ h
    simp at h
  · intro e v w st _ _ _ _ h
    have hin : Event.wait true ∈ (retryLoop g env shouldRetry fuel g.initial st).trace := by
      simpa [Run.after] using h
    obtain ⟨_, t, ht, ho, _⟩ := retryLoop_cancelled g env shouldRetry fuel g.initial st hin
    exact ⟨t, ht, ho⟩

/-- C4: in a run of `Dos` with `1 ≤ initial ≤ max` whose first `k ≥ 1` calls of `f` fail
with errors that `shouldRetry` accepts and whose first `k - 1` waits are ended by the timer,
if the context has fired when the `k`-th wait is resolved (`Done` is closed at the instant
`2 * k + 1`) and the timer is not taken, then that wait is cut short, `Dos` calls `ctx.Err()`
and returns its value, the error of the context and not the error of the last call of `f`,
and `f` is not called again: it was called exactly `k` times, and the trace ends with the
`k`-th call, its acceptance by `shouldRetry`, the draw, the wait and `ctx.Err()`. -/
theorem Dos_cancelled_during_wait {ε : Type} (g : Gosyphus) (env : Env ε)
    (shouldRetry : ε → Bool) (k fuel : Nat) (h1 : 1 ≤ g.initial) (h2 : g.initial ≤ g.max)
    (hk : 1 ≤ k) (hfuel : k ≤ fuel) (h0 : env.ctxErr 0 = none)
    (hfail : ∀ n, n < k → ∃ e, env.f n = some e ∧ shouldRetry e = true)
    (htimer : ∀ n, n + 1 < k →
      ¬(env.ctxDone (2 * n + 3) = true ∧ env.timerFirst n = false))
    (hdone : env.ctxDone (2 * k + 1) = true) (htf : env.timerFirst (k - 1) = false) :
    (g.Dos env shouldRetry fuel).outcome = Outcome.returned (env.ctxErr (2 * k + 1)) ∧
    (callResults (g.Dos env shouldRetry fuel).trace).length = k ∧
    (∃ pre e n c w, env.f n = some e ∧ shouldRetry e = true ∧
      (g.Dos env shouldRetry fuel).trace
        = pre ++ [Event.call (some e), Event.classify e true, Event.jitter c (some w),
            Event.wait true, Event.ctxErr (env.ctxErr (2 * k + 1))] ∧
      Event.wait true ∉ pre) ∧
    (env.DoneHasErr → ∃ c, env.ctxErr (2 * k + 1) = some c ∧
      (g.Dos env shouldRetry fuel).outcome = Outcome.returned (some c)) := by
  obtain ⟨ho, hlen, hmem⟩ :=
    Dos_expiry_at_wait g env shouldRetry k fuel h1 h2 hk hfuel h0 hfail htimer hdone htf
  obtain ⟨pre, e, n, c, w, t, hf, hs, _, hp, ho', hnot⟩ :=
    Dos_cancelled_shape g env shouldRetry fuel hmem
  have heq : env.ctxErr t = env.ctxErr (2 * k + 1) := by
    rw [ho] at ho'
    exact (Outcome.returned.inj ho').symm
  rw [heq] at hp
  refine ⟨ho, hlen, ⟨pre, e, n, c, w, hf, hs, hp, hnot⟩, ?_⟩
  intro hd
  cases hc : env.ctxErr (2 * k + 1) with
  | none => exact absurd hc (hd _ hdone)
  | some c' => exact ⟨c', rfl, by rw [ho, hc]⟩

/-- Witness of `Dos_cancelled_during_wait` on `TestCtxEventuallyDone`: the deadline expires
during the third wait, after three failed calls of `f`; `Done` is closed when that wait is
resolved, at instant 7, and the run returns the deadline error 1, not the error 0 of `f`,
after exactly three calls. -/
theorem Dos_cancelled_during_wait_witness :
    envDeadline.ctxDone 6 = false ∧ envDeadline.ctxDone 7 = true ∧
    ((New (1 * millisecond) (30 * millisecond)).Dos envDeadline (fun _ => true) 9).outcome
      = Outcome.returned (some 1) ∧
    callResults
      ((New (1 * millisecond) (30 * millisecond)).Dos envDeadline (fun _ => true) 9).trace
      = [some 0, some 0, some 0] ∧
    (((New (1 * millisecond) (30 * millisecond)).Dos envDeadline (fun _ => true) 9).outcome
        = Outcome.returned (envDeadline.ctxErr (2 * 3 + 1)) ∧
      (callResults
        ((New (1 * millisecond) (30 * millisecond)).Dos envDeadline (fun _ => true) 9).trace
        ).length = 3 ∧
      (∃ pre e n c w, envDeadline.f n = some e ∧ (fun _ => true) e = true ∧
        ((New (1 * millisecond) (30 * millisecond)).Dos envDeadline (fun _ => true) 9).trace
          = pre ++ [Event.call (some e), Event.classify e true, Event.jitter c (some w),
              Event.wait true, Event.ctxErr (envDeadline.ctxErr (2 * 3 + 1))] ∧
        Event.wait true ∉ pre) ∧
      (envDeadline.DoneHasErr → ∃ c, envDeadline.ctxErr (2 * 3 + 1) = some c ∧
        ((New (1 * millisecond) (30 * millisecond)).Dos envDeadline (fun _ => true) 9).outcome
          = Outcome.returned (some c))) :=
  ⟨by decide, by decide, by decide, by decide,
   Dos_cancelled_during_wait (New (1 * millisecond) (30 * millisecond)) envDeadline
    (fun _ => true) 3 9 (by decide) (by decide) (by decide) (by decide) rfl
    (fun _ _ => ⟨0, rfl, rfl⟩)
    (fun n hn h => by
      have h7 := h.1
      simp only [envDeadline, decide_eq_true_eq] at h7
      omega)
    (by decide) (by decide)⟩

theorem envExpiresInCall_lawful : envExpiresInCall.ErrStable ∧ envExpiresInCall.DoneHasErr := by
  constructor
  · intro t e ht
    simp only [envExpiresInCall] at ht ⊢
    split_ifs at ht ⊢ with h1 h2
    · omega
    · exact ht
  · intro t ht
    simp only [envExpiresInCall, decide_eq_true_eq] at ht ⊢
    rw [if_neg (by omega)]
    exact Option.some_ne_none 1

theorem envTimerWins_lawful (last : Option Nat) :
    (envTimerWins last).ErrStable ∧ (envTimerWins last).DoneHasErr := by
  constructor
  · intro t e ht
    simp only [envTimerWins] at ht ⊢
    split_ifs at ht ⊢ with h1 h2
    · omega
    · exact ht
  · intro t ht
    simp only [envTimerWins, decide_eq_true_eq] at ht ⊢
    rw [if_neg (by omega)]
    exact Option.some_ne_none 1

theorem envDeadline_lawful : envDeadline.ErrStable ∧ envDeadline.DoneHasErr := by
  constructor
  · intro t e ht
    simp only [envDeadline] at ht ⊢
    split_ifs at ht ⊢ with h1 h2
    · omega
    · exact ht
  · intro t ht
    simp only [envDeadline, decide_eq_true_eq] at ht ⊢
    rw [if_neg (by omega)]
    exact Option.some_ne_none 1

theorem envFiresDuringCall_lawful :
    envFiresDuringCall.ErrStable ∧ envFiresDuringCall.DoneHasErr := by
  constructor
  · intro t e ht
    simp only [envFiresDuringCall] at ht ⊢
    split_ifs at ht ⊢ with h1 h2
    · omega
    · exact ht
  · intro t ht
    simp only [envFiresDuringCall, decide_eq_true_eq] at ht ⊢
    rw [if_neg (by omega)]
    exact Option.some_ne_none 1

/-- C14: the code at three inputs at which the context, which keeps the contract of
`context.Context`, expires (error 1) before any call of `f` has succeeded, and the run does
not return the error of the context, against the doc comments of `Do` and `Dos`.  First
run, `Do`: the deadline expires during the first wait, at instant 3, when the timer has fired
too; the `select` takes the timer, the second call of `f`, which returns at instant 4,
succeeds, and `Do` returns nil.  Second run, `Dos`: the deadline expires while the first call
of `f` is running, between the instants 1 and 2; the call succeeds and `Dos` returns nil.
Third run, `Dos`: the deadline expires while the first call of `f` is running; the call
fails with the error 0, which `shouldRetry` rejects, and `Dos` returns the error 0. -/
theorem Dos_ctx_expired_not_returned :
    ((envTimerWins none).ErrStable ∧ (envTimerWins none).DoneHasErr) ∧
    (envTimerWins none).ctxErr 0 = none ∧ (envTimerWins none).ctxDone 3 = true ∧
    (envTimerWins none).ctxErr 3 = some 1 ∧
    timed 0 (defaultGosyphus.Do (envTimerWins none) 3).trace
      = [(0, Event.ctxErr none), (2, Event.call (some 0)), (2, Event.classify 0 true),
          (2, Event.jitter 1000000000 (some 5)), (3, Event.wait false),
          (4, Event.call none)] ∧
    (defaultGosyphus.Do (envTimerWins none) 3).outcome = Outcome.returned none ∧
    (envFiresDuringCall.ErrStable ∧ envFiresDuringCall.DoneHasErr) ∧
    envFiresDuringCall.ctxErr 0 = none ∧ envFiresDuringCall.ctxDone 1 = false ∧
    envFiresDuringCall.ctxDone 2 = true ∧ envFiresDuringCall.ctxErr 2 = some 1 ∧
    timed 0 (defaultGosyphus.Dos envFiresDuringCall (fun _ => true) 3).trace
      = [(0, Event.ctxErr none), (2, Event.call none)] ∧
    (defaultGosyphus.Dos envFiresDuringCall (fun _ => true) 3).outcome
      = Outcome.returned none ∧
    (envExpiresInCall.ErrStable ∧ envExpiresInCall.DoneHasErr) ∧
    envExpiresInCall.ctxErr 0 = none ∧ envExpiresInCall.ctxDone 2 = true ∧
    envExpiresInCall.ctxErr 2 = some 1 ∧
    timed 0 (defaultGosyphus.Dos envExpiresInCall (fun _ => false) 3).trace
      = [(0, Event.ctxErr none), (2, Event.call (some 0)), (2, Event.classify 0 false)] ∧
    (defaultGosyphus.Dos envExpiresInCall (fun _ => false) 3).outcome
      = Outcome.returned (some 0) :=
  ⟨envTimerWins_lawful none, by decide, by decide, by decide, by decide, by decide,
   envFiresDuringCall_lawful, by decide, by decide, by decide, by decide, by decide,
   by decide,
   envExpiresInCall_lawful, by decide, by decide, by decide, by decide, by decide⟩

/-- Where `Dos` does return the error of the context: on a context that keeps the contract
of `context.Context`, `Dos` (and `Do`, which is `Dos` with the classifier that is always
true) returns the error of the context when it observes the expiry at one of its two checks:
at entry, when `ctx.Err()` is non-nil; or in a wait that `ctx.Done()` cuts short, which is
what happens, after `k` calls of `f` that failed retryably and `k - 1` waits that the
timer ended, when `Done` is closed at the instant the `k`-th wait is resolved and the
`select` does not take the timer. -/
theorem Dos_ctx_expiry_observed {ε : Type} (g : Gosyphus) (env : Env ε)
    (shouldRetry : ε → Bool) (fuel : Nat) (hs : env.ErrStable) (hd : env.DoneHasErr) :
    (∀ c, env.ctxErr 0 = some c →
      (g.Dos env shouldRetry fuel).outcome = Outcome.returned (some c) ∧
      (g.Do env fuel).outcome = Outcome.returned (some c)) ∧
    (Event.wait true ∈ (g.Dos env shouldRetry fuel).trace →
      ∃ t c, env.ctxDone t = true ∧ env.ctxErr t = some c ∧
        (g.Dos env shouldRetry fuel).outcome = Outcome.returned (some c)) ∧
    (∀ k, 1 ≤ g.initial → g.initial ≤ g.max → 1 ≤ k → k ≤ fuel → env.ctxErr 0 = none →
      (∀ n, n < k → ∃ e, env.f n = some e ∧ shouldRetry e = true) →
      (∀ n, n + 1 < k → ¬(env.ctxDone (2 * n + 3) = true ∧ env.timerFirst n = false)) →
      env.ctxDone (2 * k + 1) = true → env.timerFirst (k - 1) = false →
      ∃ c, env.ctxErr (2 * k + 1) = some c ∧
        (g.Dos env shouldRetry fuel).outcome = Outcome.returned (some c) ∧
        (callResults (g.Dos env shouldRetry fuel).trace).length = k) := by
  refine ⟨?_, ?_, ?_⟩
  · intro c hc
    have h1 := hs 0 c hc
    constructor
    · simp only [Gosyphus.Dos, hc, h1]
    · simp only [Gosyphus.Do, Gosyphus.Dos, hc, h1]
  · intro hw
    obtain ⟨t, ht, ho⟩ := Dos_cancelled_returns g env shouldRetry fuel hw
    cases hc : env.ctxErr t with
    | none => exact absurd hc (hd t ht)
    | some c => exact ⟨t, c, ht, hc, by rw [ho, hc]⟩
  · intro k h1 h2 hk hfuel h0 hfail htimer hdone htf
    obtain ⟨ho, hlen, _⟩ :=
      Dos_expiry_at_wait g env shouldRetry k fuel h1 h2 hk hfuel h0 hfail htimer hdone htf
    cases hc : env.ctxErr (2 * k + 1) with
    | none => exact absurd hc (hd _ hdone)
    | some c => exact ⟨c, rfl, by rw [ho, hc], hlen⟩

/-- Witness of `Dos_ctx_expiry_observed`: the deadline (error 1) expires during the third
wait, after three calls of `f` that failed; `Done` is closed when that wait is resolved, at
instant 7, and the run returns the deadline error. -/
theorem Dos_ctx_expiry_observed_witness :
    (envDeadline.ErrStable ∧ envDeadline.DoneHasErr) ∧
    envDeadline.ctxDone 7 = true ∧
    (∃ c, envDeadline.ctxErr (2 * 3 + 1) = some c ∧
      ((New (1 * millisecond) (30 * millisecond)).Dos envDeadline (fun _ => true) 9).outcome
        = Outcome.returned (some c) ∧
      (callResults
        ((New (1 * millisecond) (30 * millisecond)).Dos envDeadline (fun _ => true) 9).trace
        ).length = 3) ∧
    ((New (1 * millisecond) (30 * millisecond)).Dos envDeadline (fun _ => true) 9).outcome
      = Outcome.returned (some 1) :=
  have key := Dos_ctx_expiry_observed (New (1 * millisecond) (30 * millisecond)) envDeadline
    (fun _ => true) 9 envDeadline_lawful.1 envDeadline_lawful.2
  ⟨envDeadline_lawful, by decide,
   key.2.2 3 (by decide) (by decide) (by decide) (by decide) rfl
    (fun _ _ => ⟨0, rfl, rfl⟩)
    (fun n hn h => by
      have h7 := h.1
      simp only [envDeadline, decide_eq_true_eq] at h7
      omega)
    (by decide) (by decide),
   by decide⟩

/-- Witness of `New_Dos_never_panics` on `TestBadConfig`, `New(0, -1)`, and on the extreme
arguments `New(-2^63, 2^63 - 1)`. -/
theorem New_Dos_never_panics_witness :
    ceilings ((New 0 (-1)).Do (scripted 2 (fun _ => 7) none (fun n => 5 + n)) 3).trace
      = [1, 1] ∧
    ((New 0 (-1)).Do (scripted 2 (fun _ => 7) none (fun n => 5 + n)) 3).outcome
      ≠ Outcome.panicked ∧
    ceilings ((New minInt64 maxInt64).Do
        (scripted 2 (fun _ => 7) none (fun n => 5 + n)) 3).trace = [1, 2] ∧
    (∀ d ∈ ceilings ((New minInt64 maxInt64).Do
        (scripted 2 (fun _ => 7) none (fun n => 5 + n)) 3).trace, 1 ≤ d) :=
  ⟨by decide,
   (New_Dos_never_panics 0 (-1) (scripted 2 (fun _ => 7) none (fun n => 5 + n))
      (fun _ => true) 3).2.2.2.2.2,
   by decide,
   (New_Dos_never_panics minInt64 maxInt64 (scripted 2 (fun _ => 7) none (fun n => 5 + n))
      (fun _ => true) 3).2.2.2.1⟩

/-- Witness of `Dos_shouldRetry_calls` on `TestEventualFailure`, where `shouldRetry` is
called twice, on the error 0 (retried) and on the error 1 (rejected), and on
`TestCtxEventuallyDone`, where nothing but `ctx.Err()` follows the wait that the deadline
cut short. -/
theorem Dos_shouldRetry_calls_witness :
    classified ((New (1 * millisecond) (30 * millisecond)).Dos
        (scripted 1 (fun _ => 0) (some 1) (fun n => 5 + n)) (fun e => e != 1) 3).trace
      = [(0, true), (1, false)] ∧
    (classified ((New (1 * millisecond) (30 * millisecond)).Dos
        (scripted 1 (fun _ => 0) (some 1) (fun n => 5 + n)) (fun e => e != 1) 3).trace).length
      = (callResults ((New (1 * millisecond) (30 * millisecond)).Dos
        (scripted 1 (fun _ => 0) (some 1) (fun n => 5 + n)) (fun e => e != 1) 3).trace).countP
          (fun r => r.isSome) ∧
    List.Chain' (InOrder (fun e => e != 1))
      ((New (1 * millisecond) (30 * millisecond)).Dos
        (scripted 1 (fun _ => 0) (some 1) (fun n => 5 + n)) (fun e => e != 1) 3).trace ∧
    (defaultGosyphus.Dos envExpiresInCall (fun _ => true) 3).trace
      = [Event.ctxErr none, Event.call (some 0), Event.classify 0 true,
          Event.jitter 1000000000 (some 5)] ++ Event.wait true :: [Event.ctxErr (some 1)] ∧
    ((∀ x ∈ [Event.ctxErr (some 1)], ∃ r, x = Event.ctxErr r) ∧
      classified [Event.ctxErr (some 1)] = [] ∧ callResults [Event.ctxErr (some 1)] = []) :=
  have key := Dos_shouldRetry_calls (New (1 * millisecond) (30 * millisecond))
    (scripted 1 (fun _ => 0) (some 1) (fun n => 5 + n)) (fun e => e != 1) 3
  ⟨by decide, key.2.1, key.2.2.1, by decide,
   (Dos_shouldRetry_calls defaultGosyphus envExpiresInCall (fun _ => true) 3).2.2.2.2.2
    [Event.ctxErr none, Event.call (some 0), Event.classify 0 true,
      Event.jitter 1000000000 (some 5)] (Event.wait true) [Event.ctxErr (some 1)]
    (by decide) (Or.inl rfl)⟩

end gosyphus
